import Mathlib

/-!
Verification of the Jigwise encryption core (`src/encryptor/jigwise/`).

A Python `bitstring` value is modelled as a `List Bool`, most significant
bit first, matching the big-endian MSB-first convention of the library.
-/

namespace Jigwise

/-- Unsigned value of a bit list given least significant bit first
(helper for `uint`, which is MSB first like `bitstring`'s `.uint`). -/
def uintAux : List Bool → Nat
  | [] => 0
  | b :: rest => (if b then 1 else 0) + 2 * uintAux rest

/-- `bits.uint` of the `bitstring` library: unsigned big-endian MSB-first
interpretation.  (On an empty bitstring Python raises `InterpretError`;
every use below is under a positive-width hypothesis.) -/
def uint (bits : List Bool) : Nat := uintAux bits.reverse

/-- Bits of `n % 2 ^ len`, least significant first (helper for `natToBits`). -/
def natToBitsAux : Nat → Nat → List Bool
  | 0, _ => []
  | l + 1, n => (n % 2 = 1) :: natToBitsAux l (n / 2)

/-- `bs.Bits(uint=n, length=len)`: the `len`-bit MSB-first encoding of `n`.
Python raises `CreationError` when `len = 0` or `n ≥ 2 ^ len`; `bitsOfUint`
carries that guard, while `natToBits` is the total underlying encoding. -/
def natToBits (len n : Nat) : List Bool := (natToBitsAux len n).reverse

/-- `bs.Bits(uint=n, length=len)` with the library's creation guard:
fails (raises) unless `1 ≤ len` and `n < 2 ^ len`. -/
def bitsOfUint (len n : Nat) : Option (List Bool) :=
  if 1 ≤ len ∧ n < 2 ^ len then some (natToBits len n) else none


/-! ## `operations.py`: the bit-transform catalog -/

/-- `operations.reverse`: `bits.reverse()`; the `opposite` keyword is accepted
but ignored by the Python function. -/
def reverse (bits : List Bool) : List Bool := bits.reverse

/-- `operations.inverse`: `bits.invert()`, flipping every bit; the `opposite`
keyword is accepted but ignored by the Python function. -/
def inverse (bits : List Bool) : List Bool := bits.map (fun b => !b)

/-- `bitstring`'s `BitArray.ror(spaces)`: circular shift right; the library
reduces `spaces` modulo the length (and raises on an empty bitstring, a case
excluded by the positive-width hypotheses of the theorems below). -/
def ror (bits : List Bool) (spaces : Nat) : List Bool :=
  bits.drop (bits.length - spaces % bits.length) ++
    bits.take (bits.length - spaces % bits.length)

/-- `bitstring`'s `BitArray.rol(spaces)`: circular shift left, modulo the
length (raises on an empty bitstring, excluded as for `ror`). -/
def rol (bits : List Bool) (spaces : Nat) : List Bool :=
  bits.drop (spaces % bits.length) ++ bits.take (spaces % bits.length)

/-- `operations.rotate(bits, spaces, is_right=True)`. -/
def rotate (bits : List Bool) (spaces : Nat) (is_right : Bool) : List Bool :=
  if is_right then ror bits spaces else rol bits spaces

/-- `operations.rotate_left(bits, spaces, opposite=False)`:
`rotate(bits, spaces, not opposite)`. -/
def rotate_left (bits : List Bool) (spaces : Nat) (opposite : Bool) : List Bool :=
  rotate bits spaces (!opposite)

/-- `operations.rotate_right(bits, spaces, opposite=False)`:
`rotate(bits, spaces, opposite)`. -/
def rotate_right (bits : List Bool) (spaces : Nat) (opposite : Bool) : List Bool :=
  rotate bits spaces opposite

/-- The `result` integer computed by `operations.wrap_around_addition` just
before it is re-encoded: `bits.uint + operand` (operand negated when
`negative`), reduced modulo `2 ** len(bits)` exactly when it falls outside
`[0, 2 ** len(bits))`.  Python's `%` on a positive modulus matches `Int.emod`. -/
def wrap_result (bits : List Bool) (operand : Int) (negative : Bool) : Int :=
  if (uint bits : Int) + (if negative then -operand else operand) < 0 ∨
      2 ^ bits.length ≤ (uint bits : Int) + (if negative then -operand else operand) then
    ((uint bits : Int) + (if negative then -operand else operand)) % 2 ^ bits.length
  else
    (uint bits : Int) + (if negative then -operand else operand)

/-- `operations.wrap_around_addition(bits, operand, negative=False)`: the
result value is re-encoded at the same width with `bs.Bits(uint=..., length=...)`
and overwritten onto `bits` from position 0, replacing it entirely.  (On an
empty bitstring Python's `Bits(uint=..., length=0)` raises; all uses below
assume a positive width.) -/
def wrap_around_addition (bits : List Bool) (operand : Int) (negative : Bool) : List Bool :=
  natToBits bits.length (wrap_result bits operand negative).toNat

/-- `operations.add(bits, operand, opposite=False)`:
`wrap_around_addition(bits, operand, opposite)`. -/
def add (bits : List Bool) (operand : Nat) (opposite : Bool) : List Bool :=
  wrap_around_addition bits operand opposite

/-- `operations.sub(bits, operand, opposite=False)`:
`wrap_around_addition(bits, operand, not opposite)`. -/
def sub (bits : List Bool) (operand : Nat) (opposite : Bool) : List Bool :=
  wrap_around_addition bits operand (!opposite)

/-- The keys of the `OPERATIONS` catalog dict
(`"v" ↦ reverse, "x" ↦ inverse, "a" ↦ add, "s" ↦ sub, "l" ↦ rotate_left,
"r" ↦ rotate_right`). -/
inductive OpName
  | reverse
  | inverse
  | add
  | sub
  | rotate_left
  | rotate_right
deriving DecidableEq

/-- The `args` field of each `Operation` namedtuple in `OPERATIONS`:
the number of extra integer operands the operation takes. -/
def opArgs : OpName → Nat
  | .reverse => 0
  | .inverse => 0
  | .add => 1
  | .sub => 1
  | .rotate_left => 1
  | .rotate_right => 1

/-- Dispatch of `operation.function(packet, *args, opposite=is_opposite)` as
performed by `PacketManager.__instruct_packets`: arity-0 operations ignore the
operand, arity-1 operations read it from `args[0]`. -/
def applyOperation (op : OpName) (k : Nat) (opposite : Bool) (bits : List Bool) : List Bool :=
  match op with
  | .reverse => reverse bits
  | .inverse => inverse bits
  | .add => add bits k opposite
  | .sub => sub bits k opposite
  | .rotate_left => rotate_left bits k opposite
  | .rotate_right => rotate_right bits k opposite

/-! ## `manager.py`: the packet engine -/

/-- The chunk-reading loop of `PacketManager.__subdivide_bits`
(`while length - bits.pos >= size: output.append(bits.read(f"bits{size}"))`).
Each `read` advances `pos` by `size`; the consumed prefix is dropped here.
The result is the list of chunks read and the unread remainder.  Structural
recursion on an iteration budget: each Python iteration consumes `size ≥ 1`
bits, so `bits.length` iterations always suffice (`readChunks` passes that
budget); with `size = 0` the guard `0 < size` stops immediately, a case
the callers below reject separately because the Python loop then reads zero
bits forever without advancing `pos` (see `subdivideLoopFuel`). -/
def readChunksAux (size : Nat) : Nat → List Bool → List (List Bool) × List Bool
  | 0, bits => ([], bits)
  | fuel + 1, bits =>
    if 0 < size ∧ size ≤ bits.length then
      let r := readChunksAux size fuel (bits.drop size)
      (bits.take size :: r.1, r.2)
    else ([], bits)

/-- The chunk-reading loop of `__subdivide_bits` run to completion. -/
def readChunks (size : Nat) (bits : List Bool) : List (List Bool) × List Bool :=
  readChunksAux size bits.length bits

/-- `output[-1].append(bits[bits.pos:])` of `__subdivide_bits`: append the
remainder to the last chunk.  (`output[-1]` on an empty list raises
`IndexError` in Python; `subdivide_bits` returns `none` there.) -/
def appendLastChunk : List (List Bool) → List Bool → List (List Bool)
  | [], _ => []
  | [c], rest => [c ++ rest]
  | c :: c2 :: cs, rest => c :: appendLastChunk (c2 :: cs) rest

/-- `PacketManager.__subdivide_bits`: read `size`-bit chunks while they fit,
then append the remaining bits to the last chunk.  `none` models the two
failure modes: `size = 0` (the zero-bit read never advances `pos`, so the
`while` loop never exits) and an empty chunk list (`output[-1]` raises
`IndexError`); neither occurs when `1 ≤ size ≤ bits.length`. -/
def subdivide_bits (size : Nat) (bits : List Bool) : Option (List (List Bool)) :=
  if size = 0 then none
  else
    match readChunks size bits with
    | ([], _) => none
    | (c :: cs, rest) => some (appendLastChunk (c :: cs) rest)

/-- Fuel-indexed view of the raw `__subdivide_bits` loop, used to reason about
non-termination: `none` means the loop has not exited within `fuel`
iterations.  The loop condition is `length - bits.pos >= size` and a `read`
advances `pos` by `size`; with `size = 0` the condition stays true and `pos`
never moves, so no amount of fuel reaches the exit. -/
def subdivideLoopFuel (size : Nat) (bits : List Bool) :
    Nat → Option (List (List Bool) × List Bool)
  | 0 => none
  | fuel + 1 =>
    if size ≤ bits.length then
      match subdivideLoopFuel size (bits.drop size) fuel with
      | some (cs, rest) => some (bits.take size :: cs, rest)
      | none => none
    else
      some ([], bits)

/-- `PacketManager.__count_packets`.  `subdivisions[-1]` is modelled with
`getLastD` (Python raises on an empty list, ruled out by `subdivide_bits`
succeeding); the divisions match Python floor division on naturals. -/
def count_packets (packet_size subdivision_size : Nat)
    (subdivisions : List (List Bool)) : Nat × Nat :=
  if subdivision_size < packet_size then (subdivisions.length, 1)
  else
    let packets := subdivision_size / packet_size +
      (if subdivision_size % packet_size ≠ 0 then 1 else 0)
    let total := packets * subdivisions.length
    let spare := (subdivisions.getLastD []).drop (subdivision_size * 8)
    let spare_size := spare.length / 8
    (total + (spare_size / packet_size + (if spare_size % packet_size ≠ 0 then 1 else 0)),
      packets)

/-- `PacketManager.__get_packets(bits)`: yield `packet_size`-byte packets while
at least two still fit (`length - bits.pos >= packet_bits * 2`), then the whole
remainder as one final packet.  Same iteration-budget scheme as
`readChunksAux`; the guard `0 < packetBits` reflects that a zero packet size
leaves `pos` stuck in Python, and every claim below takes `packet_size ≥ 1`. -/
def get_packetsAux (packetBits : Nat) : Nat → List Bool → List (List Bool)
  | 0, bits => [bits]
  | fuel + 1, bits =>
    if 0 < packetBits ∧ packetBits * 2 ≤ bits.length then
      bits.take packetBits :: get_packetsAux packetBits fuel (bits.drop packetBits)
    else [bits]

/-- `PacketManager.__get_packets` run to completion. -/
def get_packets (packetBits : Nat) (bits : List Bool) : List (List Bool) :=
  get_packetsAux packetBits bits.length bits

/-- One instruction tuple `(operation, start, stop, args)` as consumed by
`PacketManager.__instruct_packets`; `args` holds the extra operands
(`args[0]` is the operand of the arity-1 operations). -/
structure Instruction where
  op : OpName
  start : Nat
  stop : Nat
  args : List Nat
deriving DecidableEq

/-- One step of the instruction loop of `__instruct_packets`:
`if start <= packet_index < stop: operation.function(packet, *args,
opposite=is_opposite)`.  `headD 0` stands for `args[0]`, which Python only
evaluates for arity-1 operations (generation always supplies exactly the
arity's worth of operands). -/
def applyInstruction (packet_index : Nat) (is_opposite : Bool) (packet : List Bool)
    (ins : Instruction) : List Bool :=
  if ins.start ≤ packet_index ∧ packet_index < ins.stop then
    applyOperation ins.op (ins.args.headD 0) is_opposite packet
  else packet

/-- All instructions applied to one packet, in list order. -/
def instructPacket (instructions : List Instruction) (is_opposite : Bool)
    (packet_index : Nat) (packet : List Bool) : List Bool :=
  instructions.foldl (applyInstruction packet_index is_opposite) packet

/-- The byte read-out loop of `__instruct_packets`
(`while packet.pos < length: i = packet.read("uint8")`): the packet's bytes,
MSB first, or `none` when the packet is not byte-aligned (the final
`read("uint8")` would raise `ReadError`). -/
def bytesOfBits (bits : List Bool) : Option (List Nat) :=
  let r := readChunks 8 bits
  if r.2 = [] then some (r.1.map uint) else none

/-- The stores `output[byte_index] = i; byte_index += 1` into the shared
`mp.Array` buffer, modelled as a list of byte values (`List.set` is a no-op
out of range where Python would raise `IndexError`; the disjoint-region
layout keeps all indices in range). -/
def writeBytes (output : List Nat) (idx : Nat) : List Nat → List Nat
  | [] => output
  | b :: bs => writeBytes (output.set idx b) (idx + 1) bs

/-- The per-packet body of `PacketManager.__instruct_packets`, iterated over
the subdivision's packets: apply every covering instruction in list order,
then write the packet's bytes at consecutive byte indices and advance the
packet index. -/
def writePackets (instructions : List Instruction) (is_opposite : Bool) :
    List (List Bool) → Nat → Nat → List Nat → Option (List Nat)
  | [], _, _, output => some output
  | p :: ps, byte_index, packet_index, output =>
    let p2 := instructPacket instructions is_opposite packet_index p
    match bytesOfBits p2 with
    | none => none
    | some bs =>
      writePackets instructions is_opposite ps (byte_index + bs.length)
        (packet_index + 1) (writeBytes output byte_index bs)

/-- `PacketManager.__instruct_packets(bits, instructions, is_opposite,
byte_index, packet_index, output)` for one subdivision. -/
def instruct_packets (packetBits : Nat) (sub : List Bool)
    (instructions : List Instruction) (is_opposite : Bool)
    (byte_index packet_index : Nat) (output : List Nat) : Option (List Nat) :=
  writePackets instructions is_opposite (get_packets packetBits sub)
    byte_index packet_index output

/-- The worker-spawning loop of `PacketManager.instruct`: worker `i` handles
subdivision `i` starting at byte index `i * subdivision_size` and packet index
`i * packets_per_subdivision`.  The workers own disjoint regions of the shared
buffer, so running them sequentially models the parallel execution exactly. -/
def instructWorkers (packetBits subdivision_size packets_per_subdivision : Nat)
    (instructions : List Instruction) (is_opposite : Bool) :
    List (List Bool) → Nat → List Nat → Option (List Nat)
  | [], _, output => some output
  | sub :: subs, i, output =>
    match instruct_packets packetBits sub instructions is_opposite
        (i * subdivision_size) (i * packets_per_subdivision) output with
    | none => none
    | some output2 =>
      instructWorkers packetBits subdivision_size packets_per_subdivision
        instructions is_opposite subs (i + 1) output2

/-- `bs.BitStream(bytes(output))`: each byte cell becomes eight bits, MSB
first. -/
def bitsOfBytes (bytes : List Nat) : List Bool :=
  (bytes.map (natToBits 8)).flatten

/-- The state of a `PacketManager`, mirroring the fields set by `__init__`. -/
structure PacketManager where
  content : List Bool
  byteCount : Nat
  subdivision_size : Nat
  subdivision_count : Nat
  subdivisions : List (List Bool)
  packet_size : Nat
  packet_count : Nat
  packets_per_subdivision : Nat
deriving DecidableEq

/-- `PacketManager.__init__(content, packet_size, subdivision_count)`:
`none` when `__subdivide_bits` fails to return (or would raise).  A zero
`subdivision_count` would raise `ZeroDivisionError` in Python; the theorems
below all take it positive. -/
def packetManagerInit (content : List Bool) (packet_size subdivision_count : Nat) :
    Option PacketManager :=
  let byteCount := content.length / 8
  let subdivision_size := byteCount / subdivision_count
  match subdivide_bits (subdivision_size * 8) content with
  | none => none
  | some subdivisions =>
    let counts := count_packets packet_size subdivision_size subdivisions
    some { content := content, byteCount := byteCount,
           subdivision_size := subdivision_size,
           subdivision_count := subdivision_count,
           subdivisions := subdivisions,
           packet_size := packet_size,
           packet_count := counts.1,
           packets_per_subdivision := counts.2 }

/-- `PacketManager.instruct(instructions, is_opposite)`: run one worker per
subdivision over a fresh zero-initialised shared byte buffer of
`self.__bytes` cells, rebuild the content from the buffer and re-subdivide.
`__packet_count` and the other fields are not recomputed. -/
def instruct (pm : PacketManager) (instructions : List Instruction)
    (is_opposite : Bool) : Option PacketManager :=
  match instructWorkers (pm.packet_size * 8) pm.subdivision_size
      pm.packets_per_subdivision instructions is_opposite pm.subdivisions 0
      (List.replicate pm.byteCount 0) with
  | none => none
  | some output =>
    let content2 := bitsOfBytes output
    match subdivide_bits (pm.subdivision_size * 8) content2 with
    | none => none
    | some subs2 => some { pm with content := content2, subdivisions := subs2 }

/-- `FileManager.assemble()` called with zero paths, as `Encryptor.encrypt`
does when given no sources: `flatten_directories(())` finds nothing and
nothing is appended to the stream — the empty bitstream. -/
def assembleNoSources : List Bool := []

/-! ## `table.py`: the symbol table -/

/-- A Python slice `bits[lo:hi]` of a bitstring: elements `lo .. hi-1`,
clamped to the ends. -/
def pySlice (bits : List Bool) (lo hi : Nat) : List Bool := (bits.take hi).drop lo

/-- The parse loop of `Table.__read_mappings`: starting at `head = 8`
(`HEADER_SIZE`), while `head < length`: take the symbol slice
`imported[head : head+symbol_length]` and the code slice
`imported[head+8 : head+16]` (`tail = head + 8`), decode the latter as one
ASCII byte and look it up in the operations dict; on failure
(`InterpretError` when the slice is not whole bytes, `UnicodeDecodeError`
when the byte is ≥ 128, `ValueError` when the character is not a catalog
key) the load aborts — modelled as `none`.  Otherwise record the mapping and
advance `head` by 16.  The dict is modelled as the association list in parse
order; `ops` is the list of catalog code byte values
(`"v" "x" "a" "s" "l" "r"`).  Iteration budget as in `readChunksAux`:
`head` grows by 16 per iteration, so `imported.length` iterations suffice. -/
def read_mappings_loop (symbol_length : Nat) (ops : List Nat)
    (imported : List Bool) : Nat → Nat → Option (List (List Bool × Nat))
  | 0, _ => none
  | fuel + 1, head =>
    if head < imported.length then
      let symbol := pySlice imported head (head + symbol_length)
      let codeBits := pySlice imported (head + 8) (head + 16)
      if codeBits.length = 8 ∧ uint codeBits < 128 then
        if uint codeBits ∈ ops then
          match read_mappings_loop symbol_length ops imported fuel (head + 16) with
          | some rest => some ((symbol, uint codeBits) :: rest)
          | none => none
        else none
      else none
    else some []

/-- `Table.__read_mappings(imported)` run from `head = HEADER_SIZE = 8`. -/
def read_mappings (symbol_length : Nat) (ops : List Nat) (imported : List Bool) :
    Option (List (List Bool × Nat)) :=
  read_mappings_loop symbol_length ops imported imported.length 8

/-- `Table.__init__` with a `source`: the first 8 bits are the symbol width,
then the mappings are parsed; any parse exception propagates out of the
constructor, so no `Table` object is produced — either the complete parsed
mapping is exposed or nothing. -/
def table_load (ops : List Nat) (imported : List Bool) :
    Option (Nat × List (List Bool × Nat)) :=
  match read_mappings (uint (pySlice imported 0 8)) ops imported with
  | none => none
  | some m => some (uint (pySlice imported 0 8), m)

/-! ## `encryptor.py`: the instruction codec and the ordinal encoder -/

/-- `⌊log₂ n⌋` computed with an explicit iteration budget (each step halves
`n`, so `n` steps always suffice); `log2Aux_eq_log2` below shows it equals
`Nat.log2`, whose well-founded recursion the kernel cannot evaluate. -/
def log2Aux : Nat → Nat → Nat
  | 0, _ => 0
  | fuel + 1, n => if n ≥ 2 then log2Aux fuel (n / 2) + 1 else 0

/-- `Encryptor.__fewest_bits`: `1` for `0`, else
`math.floor(math.log2(num)) + 1`.  The integer logarithm here is exact; the
float `math.log2` agrees with it for every value below roughly `2^47`
(the operands here are packet indices, far smaller). -/
def fewest_bits (num : Nat) : Nat :=
  if num = 0 then 1 else log2Aux num num + 1

/-- `Encryptor.__fewest_bytes`: `math.ceil(fewest_bits(num) / 8)`, the exact
ceiling. -/
def fewest_bytes (num : Nat) : Nat := (fewest_bits num + 7) / 8

/-- The operand loop of `Encryptor.__build_key`:
`key.append(bs.Bits(uint=arg, length=fewest_bits))` for each argument at the
record's shared width. -/
def encodeArgs (width : Nat) : List Nat → Option (List Bool)
  | [] => some []
  | a :: rest =>
    match bitsOfUint width a, encodeArgs width rest with
    | some b, some r => some (b ++ r)
    | _, _ => none

/-- One record appended by `Encryptor.__build_key` for an instruction
`(op, start, stop, additional)`: the table's symbol for `op`, then
`len(additional)` in `remaining_length = 8 - symbol_length` bits, then the
shared operand byte width `max(fewest_bytes(a) for a in arguments)` in 8
bits, then start, stop and each extra operand in `operand_byte_width * 8`
bits each.  Python's `max` ranges over the nonempty argument tuple; `foldl
max 0` is identical on naturals.  Each `bs.Bits(uint=..., length=...)`
creation carries its guard (`bitsOfUint`), matching Python's
`CreationError`s. -/
def build_record (table : OpName → List Bool) (remaining_length : Nat)
    (ins : Instruction) : Option (List Bool) :=
  let arguments := ins.start :: ins.stop :: ins.args
  let fewestBytesAll := (arguments.map fewest_bytes).foldl max 0
  let fewestBitsAll := fewestBytesAll * 8
  match bitsOfUint remaining_length ins.args.length,
      bitsOfUint 8 fewestBytesAll, encodeArgs fewestBitsAll arguments with
  | some cnt, some fb, some argBits => some (table ins.op ++ cnt ++ fb ++ argBits)
  | _, _, _ => none

/-- The record loop of `__build_key` after `instructions.reverse()`: one
record per instruction, concatenated. -/
def buildRecords (table : OpName → List Bool) (remaining_length : Nat) :
    List Instruction → Option (List Bool)
  | [] => some []
  | ins :: rest =>
    match build_record table remaining_length ins,
        buildRecords table remaining_length rest with
    | some r, some k => some (r ++ k)
    | _, _ => none

/-- `Encryptor.__build_key(instructions)`: `instructions.reverse()` in place,
then every record appended in that (reversed) order. -/
def build_key (table : OpName → List Bool) (remaining_length : Nat)
    (instructions : List Instruction) : Option (List Bool) :=
  buildRecords table remaining_length instructions.reverse

/-- `bits.insert(bs, pos)` for a single bit: inserted at `pos`, shifting
subsequent bits right (Python raises `ValueError` for `pos > len`, ruled out
by the theorems' hypotheses). -/
def insertAt (bits : List Bool) (b : Bool) (pos : Nat) : List Bool :=
  bits.take pos ++ b :: bits.drop pos

/-- The insertion loop of `Encryptor.__get_ordered_keys` for one key: ordinal
bit `i` (read MSB first from the `ordinal_bit_count`-bit encoding of the
key's generation index) is inserted at position `i * ordinal_bit_increment`
of the current bits. -/
def insertOrdinals (obi : Nat) : Nat → List Bool → List Bool → List Bool
  | _, [], bits => bits
  | i, b :: rest, bits => insertOrdinals obi (i + 1) rest (insertAt bits b (i * obi))

/-- `Encryptor.__get_ordered_keys(keys, ordinal_bit_increment,
ordinal_bit_count)`: key number `order` (enumeration order) receives
`bs.ConstBitStream(uint=order, length=ordinal_bit_count)` bit by bit.
`natToBits` equals that encoding whenever `order < 2 ^ ordinal_bit_count`,
which the recoverability theorem establishes; otherwise Python raises
`CreationError`. -/
def get_ordered_keys (keys : List (List Bool)) (obi obc : Nat) : List (List Bool) :=
  keys.mapIdx (fun order key => insertOrdinals obi 0 (natToBits obc order) key)

/-- `min(len(k) for k in keys)` of `__get_ordinal_bit_increment` (Python
raises on an empty sequence; the theorems take at least one key). -/
def minKeyLength : List (List Bool) → Nat
  | [] => 0
  | k :: rest => (rest.map List.length).foldl min k.length

/-- `Encryptor.__get_ordinal_bit_increment`:
`math.ceil(minimum_length / (bit_count * rng))` with
`rng = secrets.randbelow(minimum_length) + 1`, a fresh secret in
`[1, minimum_length]`; the ceiling is exact at these magnitudes. -/
def ordinal_bit_increment (minimum_length bit_count rng : Nat) : Nat :=
  (minimum_length + bit_count * rng - 1) / (bit_count * rng)

/-- The recovery procedure the claim describes (decrypt is not present in the
source): read the bit at position `i * ordinal_bit_increment` of the tagged
key for `i = 0 .. ordinal_bit_count - 1`, MSB first. -/
def readOrdinals (bits : List Bool) (obc obi : Nat) : List Bool :=
  (List.range obc).map (fun i => bits.getD (i * obi) false)

/-- Undoing one insertion: delete the bit at `pos`. -/
def removeAt (bits : List Bool) (pos : Nat) : List Bool :=
  bits.take pos ++ bits.drop (pos + 1)

/-- The removal procedure the claim describes: strip the ordinal bits again,
highest insertion position first. -/
def removeOrdinals (obi : Nat) : Nat → List Bool → List Bool
  | 0, bits => bits
  | n + 1, bits => removeOrdinals obi n (removeAt bits (n * obi))

/-! ## Theorems -/

theorem uintAux_lt (bits : List Bool) : uintAux bits < 2 ^ bits.length := by
  induction bits with
  | nil => simp [uintAux]
  | cons b rest ih =>
    simp only [uintAux, List.length_cons, pow_succ]
    cases b <;> simp <;> omega

theorem uint_lt (bits : List Bool) : uint bits < 2 ^ bits.length := by
  have h := uintAux_lt bits.reverse
  simpa [uint] using h

theorem natToBitsAux_length (l n : Nat) : (natToBitsAux l n).length = l := by
  induction l generalizing n with
  | zero => rfl
  | succ l ih => simp [natToBitsAux, ih]

theorem natToBits_length (l n : Nat) : (natToBits l n).length = l := by
  simp [natToBits, natToBitsAux_length]

theorem uintAux_natToBitsAux (l n : Nat) : uintAux (natToBitsAux l n) = n % 2 ^ l := by
  induction l generalizing n with
  | zero => simp [natToBitsAux, uintAux, Nat.mod_one]
  | succ l ih =>
    have h1 : n % (2 * 2 ^ l) / 2 = n / 2 % 2 ^ l := Nat.mod_mul_right_div_self n 2 (2 ^ l)
    have h2 : n % (2 * 2 ^ l) % 2 = n % 2 := Nat.mod_mod_of_dvd n ⟨2 ^ l, rfl⟩
    have h3 : 2 * (n % (2 * 2 ^ l) / 2) + n % (2 * 2 ^ l) % 2 = n % (2 * 2 ^ l) :=
      Nat.div_add_mod _ 2
    have hpow : 2 ^ (l + 1) = 2 * 2 ^ l := by ring
    simp only [natToBitsAux, uintAux, ih, hpow]
    rcases Nat.mod_two_eq_zero_or_one n with h | h
    · rw [← h3, h1, h2, h]; simp [h]
    · rw [← h3, h1, h2, h]; simp [h]; ring

theorem natToBitsAux_uintAux (bits : List Bool) :
    natToBitsAux bits.length (uintAux bits) = bits := by
  induction bits with
  | nil => rfl
  | cons b rest ih =>
    cases b with
    | false =>
      have h1 : (0 + 2 * uintAux rest) % 2 = 0 := by omega
      have h2 : (0 + 2 * uintAux rest) / 2 = uintAux rest := by omega
      simp [natToBitsAux, uintAux, h1, h2, ih]
    | true =>
      have h1 : (1 + 2 * uintAux rest) % 2 = 1 := by omega
      have h2 : (1 + 2 * uintAux rest) / 2 = uintAux rest := by omega
      simp [natToBitsAux, uintAux, h1, h2, ih]

theorem uint_natToBits (l n : Nat) : uint (natToBits l n) = n % 2 ^ l := by
  simp [uint, natToBits, uintAux_natToBitsAux]

theorem natToBits_uint (bits : List Bool) : natToBits bits.length (uint bits) = bits := by
  have h : bits.length = bits.reverse.length := by simp
  simp only [natToBits, uint, h, natToBitsAux_uintAux, List.reverse_reverse]

theorem rol_ror (bits : List Bool) (k : Nat) (h : 0 < bits.length) :
    rol (ror bits k) k = bits := by
  unfold ror rol
  have hslt : k % bits.length < bits.length := Nat.mod_lt _ h
  have hlen1 : (bits.drop (bits.length - k % bits.length)).length = k % bits.length := by
    rw [List.length_drop]; omega
  have hlenapp : (bits.drop (bits.length - k % bits.length) ++
      bits.take (bits.length - k % bits.length)).length = bits.length := by
    rw [List.length_append, List.length_drop, List.length_take]; omega
  rw [hlenapp, List.drop_left' hlen1, List.take_left' hlen1, List.take_append_drop]

theorem ror_rol (bits : List Bool) (k : Nat) (h : 0 < bits.length) :
    ror (rol bits k) k = bits := by
  unfold ror rol
  have hslt : k % bits.length < bits.length := Nat.mod_lt _ h
  have hlen1 : (bits.drop (k % bits.length)).length = bits.length - k % bits.length :=
    List.length_drop _ _
  have hlenapp : (bits.drop (k % bits.length) ++
      bits.take (k % bits.length)).length = bits.length := by
    rw [List.length_append, List.length_drop, List.length_take]; omega
  rw [hlenapp, List.drop_left' hlen1, List.take_left' hlen1, List.take_append_drop]

theorem wrap_result_eq (bits : List Bool) (operand : Int) (negative : Bool) :
    wrap_result bits operand negative =
      ((uint bits : Int) + (if negative then -operand else operand)) % 2 ^ bits.length := by
  unfold wrap_result
  set s : Int := if negative then -operand else operand with hs
  split_ifs with h
  · rfl
  · push_neg at h
    exact (Int.emod_eq_of_lt h.1 h.2).symm

theorem wrap_result_nonneg (bits : List Bool) (operand : Int) (negative : Bool) :
    0 ≤ wrap_result bits operand negative := by
  rw [wrap_result_eq]
  exact Int.emod_nonneg _ (by positivity)

theorem wrap_result_lt (bits : List Bool) (operand : Int) (negative : Bool) :
    wrap_result bits operand negative < 2 ^ bits.length := by
  rw [wrap_result_eq]
  exact Int.emod_lt_of_pos _ (by positivity)

theorem wrap_around_addition_length (bits : List Bool) (operand : Int) (negative : Bool) :
    (wrap_around_addition bits operand negative).length = bits.length := by
  simp [wrap_around_addition, natToBits_length]

theorem uint_wrap_around_addition (bits : List Bool) (operand : Int) (negative : Bool) :
    (uint (wrap_around_addition bits operand negative) : Int) =
      ((uint bits : Int) + (if negative then -operand else operand)) % 2 ^ bits.length := by
  have hnn := wrap_result_nonneg bits operand negative
  have hlt := wrap_result_lt bits operand negative
  have htoNat : ((wrap_result bits operand negative).toNat : Int) =
      wrap_result bits operand negative := Int.toNat_of_nonneg hnn
  have hltNat : (wrap_result bits operand negative).toNat < 2 ^ bits.length := by
    have h2 : ((2 ^ bits.length : Nat) : Int) = 2 ^ bits.length := by push_cast; ring
    omega
  rw [wrap_around_addition, uint_natToBits, Nat.mod_eq_of_lt hltNat, htoNat,
    wrap_result_eq]

theorem wrap_around_cancel (bits : List Bool) (k : Nat) (neg : Bool) :
    wrap_around_addition (wrap_around_addition bits (k : Int) neg) (k : Int) (!neg) = bits := by
  have hlen := wrap_around_addition_length bits (k : Int) neg
  have hu : (uint (wrap_around_addition bits (k : Int) neg) : Int) =
      ((uint bits : Int) + (if neg then -(k : Int) else (k : Int))) % 2 ^ bits.length :=
    uint_wrap_around_addition bits (k : Int) neg
  have hval : wrap_result (wrap_around_addition bits (k : Int) neg) (k : Int) (!neg) =
      (uint bits : Int) := by
    rw [wrap_result_eq, hlen, hu]
    have hs : (if !neg then -(k : Int) else (k : Int)) =
        -(if neg then -(k : Int) else (k : Int)) := by cases neg <;> simp
    rw [hs, Int.emod_add_emod, add_neg_cancel_right]
    exact Int.emod_eq_of_lt (Int.natCast_nonneg _) (by exact_mod_cast uint_lt bits)
  show natToBits (wrap_around_addition bits (k : Int) neg).length
      (wrap_result (wrap_around_addition bits (k : Int) neg) (k : Int) (!neg)).toNat = bits
  rw [hval, hlen, Int.toNat_natCast, natToBits_uint]

/-- **C1.** For every catalog operation (reverse, invert, rotate-left,
rotate-right, add, sub), every bit pattern of every positive width and every
operand, running the operation with `opposite=True` on the result of running it
with `opposite=False` and the same operand restores the input exactly; in
particular `reverse` and `inverse` are involutions. -/
theorem operations_inverse_cancels_forward (op : OpName) (k : Nat) (bits : List Bool)
    (h : 0 < bits.length) :
    applyOperation op k true (applyOperation op k false bits) = bits ∧
    reverse (reverse bits) = bits ∧ inverse (inverse bits) = bits := by
  refine ⟨?_, ?_, ?_⟩
  · cases op with
    | reverse => simp [applyOperation, reverse]
    | inverse => simp [applyOperation, inverse, List.map_map, Function.comp_def, Bool.not_not]
    | add => exact wrap_around_cancel bits k false
    | sub => exact wrap_around_cancel bits k true
    | rotate_left =>
      simp only [applyOperation, rotate_left, rotate, Bool.not_false, Bool.not_true,
        if_true, if_false]
      exact rol_ror bits k h
    | rotate_right =>
      simp only [applyOperation, rotate_right, rotate, if_true, if_false]
      exact ror_rol bits k h
  · simp [reverse]
  · simp [inverse, List.map_map, Function.comp_def, Bool.not_not]

theorem operations_inverse_cancels_forward_witness :
    applyOperation OpName.add 5 true (applyOperation OpName.add 5 false [true, false, true]) =
      [true, false, true] ∧
    reverse (reverse [true, false, true]) = [true, false, true] ∧
    inverse (inverse [true, false, true]) = [true, false, true] :=
  operations_inverse_cancels_forward OpName.add 5 [true, false, true] (by decide)

/-- **C2.** The claim states that `rotate_left` run in forward mode
(`opposite=False`) circularly shifts the bits left by `k`.  The code calls
`rotate(bits, spaces, not opposite)`, so forward mode sets `is_right=True` and
performs `bits.ror(spaces)` — a RIGHT rotation — contradicting the function's
own docstring ("Rotates a given bitstring a given number of places to the
left").  On the pattern `0b100` with `k = 1` the forward output is the right
rotation `0b010`, not the left rotation `0b001` (and symmetrically
`rotate_right` in forward mode performs `rol`, a left rotation). -/
theorem rotate_left_forward_performs_right_rotation :
    rotate_left [true, false, false] 1 false = ror [true, false, false] 1 ∧
    ror [true, false, false] 1 = [false, true, false] ∧
    rol [true, false, false] 1 = [false, false, true] ∧
    rotate_left [true, false, false] 1 false ≠ rol [true, false, false] 1 ∧
    rotate_right [true, false, false] 1 false = rol [true, false, false] 1 := by
  refine ⟨rfl, by decide, by decide, by decide, rfl⟩

/-- **C8.** For every bit pattern `x` of positive width `w` and every
non-negative operand `k`: `add` produces `(x + k) mod 2^w`, `sub` produces
`(x - k) mod 2^w`, the stored result always lies in `[0, 2^w)` (so re-encoding
at width `w` never fails), and `sub(add(x, k), k) = x`. -/
theorem wrap_arithmetic_correct (bits : List Bool) (k : Nat) (h : 0 < bits.length) :
    uint (add bits k false) = (uint bits + k) % 2 ^ bits.length ∧
    (uint (sub bits k false) : Int) = ((uint bits : Int) - k) % 2 ^ bits.length ∧
    (add bits k false).length = bits.length ∧
    uint (add bits k false) < 2 ^ bits.length ∧
    (sub bits k false).length = bits.length ∧
    uint (sub bits k false) < 2 ^ bits.length ∧
    sub (add bits k false) k false = bits := by
  have hadd : (uint (add bits k false) : Int) =
      ((uint bits : Int) + (k : Int)) % 2 ^ bits.length := by
    have huw := uint_wrap_around_addition bits (k : Int) false
    simpa [add] using huw
  have hsub : (uint (sub bits k false) : Int) =
      ((uint bits : Int) - (k : Int)) % 2 ^ bits.length := by
    have huw := uint_wrap_around_addition bits (k : Int) true
    simpa [sub, sub_eq_add_neg] using huw
  have hlenAdd : (add bits k false).length = bits.length :=
    wrap_around_addition_length bits (k : Int) false
  have hlenSub : (sub bits k false).length = bits.length :=
    wrap_around_addition_length bits (k : Int) true
  refine ⟨?_, hsub, hlenAdd, ?_, hlenSub, ?_, ?_⟩
  · have hmodcast : (((uint bits + k) % 2 ^ bits.length : Nat) : Int) =
        ((uint bits : Int) + (k : Int)) % 2 ^ bits.length := by
      push_cast
      ring
    exact_mod_cast hadd.trans hmodcast.symm
  · have := uint_lt (add bits k false)
    rwa [hlenAdd] at this
  · have := uint_lt (sub bits k false)
    rwa [hlenSub] at this
  · exact wrap_around_cancel bits k false

theorem readChunksAux_spec (size : Nat) (hsize : 0 < size) :
    ∀ fuel bits, bits.length ≤ fuel →
      (readChunksAux size fuel bits).1.flatten ++ (readChunksAux size fuel bits).2 = bits ∧
      (∀ c ∈ (readChunksAux size fuel bits).1, c.length = size) ∧
      (readChunksAux size fuel bits).1.length = bits.length / size ∧
      (readChunksAux size fuel bits).2.length = bits.length % size := by
  intro fuel
  induction fuel with
  | zero =>
    intro bits hb
    have hnil : bits = [] := List.eq_nil_of_length_eq_zero (Nat.le_zero.mp hb)
    subst hnil
    simp [readChunksAux]
  | succ fuel ih =>
    intro bits hb
    by_cases hc : size ≤ bits.length
    · have hdrop : (bits.drop size).length ≤ fuel := by
        rw [List.length_drop]; omega
      have hrec := ih (bits.drop size) hdrop
      have hunfold : readChunksAux size (fuel + 1) bits =
          (bits.take size :: (readChunksAux size fuel (bits.drop size)).1,
            (readChunksAux size fuel (bits.drop size)).2) := by
        simp [readChunksAux, hsize, hc]
      rw [hunfold]
      refine ⟨?_, ?_, ?_, ?_⟩
      · simp only [List.flatten_cons, List.append_assoc, hrec.1, List.take_append_drop]
      · intro c hcmem
        rcases List.mem_cons.mp hcmem with h | h
        · subst h; rw [List.length_take]; omega
        · exact hrec.2.1 c h
      · simp only [List.length_cons, hrec.2.2.1, List.length_drop]
        rw [Nat.div_eq_sub_div hsize hc]
      · simp only [hrec.2.2.2, List.length_drop]
        rw [← Nat.mod_eq_sub_mod hc]
    · have hunfold : readChunksAux size (fuel + 1) bits = ([], bits) := by
        simp [readChunksAux, hc]
      rw [hunfold]
      push_neg at hc
      refine ⟨by simp, by simp, ?_, ?_⟩
      · simp [Nat.div_eq_of_lt hc]
      · simp [Nat.mod_eq_of_lt hc]

theorem readChunks_spec (size : Nat) (bits : List Bool) (hsize : 0 < size) :
    (readChunks size bits).1.flatten ++ (readChunks size bits).2 = bits ∧
    (∀ c ∈ (readChunks size bits).1, c.length = size) ∧
    (readChunks size bits).1.length = bits.length / size ∧
    (readChunks size bits).2.length = bits.length % size :=
  readChunksAux_spec size hsize bits.length bits le_rfl

theorem appendLastChunk_eq : ∀ (cs : List (List Bool)) (rest : List Bool) (h : cs ≠ []),
    appendLastChunk cs rest = cs.dropLast ++ [cs.getLast h ++ rest]
  | [], _, h => absurd rfl h
  | [c], rest, _ => by simp [appendLastChunk]
  | c :: c2 :: cs, rest, _ => by
    rw [show appendLastChunk (c :: c2 :: cs) rest =
          c :: appendLastChunk (c2 :: cs) rest from rfl,
      appendLastChunk_eq (c2 :: cs) rest (by simp)]
    simp [List.getLast_cons]

theorem subdivide_bits_spec (size : Nat) (bits : List Bool) (h1 : 1 ≤ size)
    (h2 : size ≤ bits.length) :
    ∃ front last,
      subdivide_bits size bits = some (front ++ [last]) ∧
      (front ++ [last]).length = bits.length / size ∧
      (front ++ [last]).flatten = bits ∧
      (∀ c ∈ front, c.length = size) ∧
      last.length = size + bits.length % size := by
  obtain ⟨hflat, hmem, hcount, hrest⟩ := readChunks_spec size bits h1
  have hpos : 0 < (readChunks size bits).1.length := by
    rw [hcount]
    exact Nat.one_le_div_iff h1 |>.mpr h2
  obtain ⟨c, cs, hcons⟩ := List.exists_cons_of_ne_nil
    (List.ne_nil_of_length_pos hpos)
  have hne : (c :: cs : List (List Bool)) ≠ [] := by simp
  have happ := appendLastChunk_eq (c :: cs) (readChunks size bits).2 hne
  have hsub : subdivide_bits size bits =
      some (appendLastChunk (c :: cs) (readChunks size bits).2) := by
    unfold subdivide_bits
    rw [if_neg (by omega)]
    have hrc : readChunks size bits = (c :: cs, (readChunks size bits).2) := by
      rw [← hcons]
    rw [hrc]
  have hc2 : cs.length + 1 = bits.length / size := by
    rw [hcons] at hcount
    simpa using hcount
  have hlast : (c :: cs).getLast hne ∈ c :: cs := List.getLast_mem hne
  have h5 : ((c :: cs).getLast hne).length = size :=
    hmem _ (by rw [hcons]; exact hlast)
  have hdl : (c :: cs).dropLast ++ [(c :: cs).getLast hne] = c :: cs :=
    List.dropLast_append_getLast hne
  refine ⟨(c :: cs).dropLast, (c :: cs).getLast hne ++ (readChunks size bits).2,
    ?_, ?_, ?_, ?_, ?_⟩
  · rw [hsub, happ]
  · simp only [List.length_append, List.length_dropLast, List.length_cons,
      List.length_nil]
    rw [← hc2]
    omega
  · rw [List.flatten_append]
    simp only [List.flatten_cons, List.flatten_nil, List.append_nil]
    have hkey : ((c :: cs).dropLast ++ [(c :: cs).getLast hne]).flatten ++
        (readChunks size bits).2 = bits := by
      rw [hdl, ← hcons]; exact hflat
    rw [List.flatten_append] at hkey
    simp only [List.flatten_cons, List.flatten_nil, List.append_nil] at hkey
    rw [← List.append_assoc]
    exact hkey
  · intro x hx
    have hx3 : x ∈ c :: cs := List.dropLast_subset _ hx
    rw [← hcons] at hx3
    exact hmem x hx3
  · rw [List.length_append]
    omega

theorem packetManagerInit_eq (content : List Bool) (packet_size S : Nat)
    (subs : List (List Bool))
    (h : subdivide_bits (content.length / 8 / S * 8) content = some subs) :
    packetManagerInit content packet_size S = some
      { content := content, byteCount := content.length / 8,
        subdivision_size := content.length / 8 / S,
        subdivision_count := S, subdivisions := subs,
        packet_size := packet_size,
        packet_count := (count_packets packet_size (content.length / 8 / S) subs).1,
        packets_per_subdivision :=
          (count_packets packet_size (content.length / 8 / S) subs).2 } := by
  simp only [packetManagerInit, h]

/-- **C3 (counterexample).** The claim says the content always splits into
exactly `S` subdivisions.  An 11-byte (88-bit) content with `S = 4` gives a
subdivision size of `11 // 4 = 2` bytes, and the 16-bit read loop emits
`11 // 2 = 5` chunks before appending the remaining byte to the last one:
5 subdivisions, not 4. -/
theorem eleven_bytes_four_workers_give_five_subdivisions :
    (packetManagerInit (List.replicate 88 false) 2 4).map
      (fun pm => pm.subdivisions.length) = some 5 ∧ (5 : Nat) ≠ 4 := by
  constructor
  · decide
  · decide

/-- **C3 (amended).** For byte-aligned content of `L` bits (`B = L/8` bytes)
and subdivision count `1 ≤ S ≤ B`, `PacketManager` partitions the content into
exactly `B / (B / S)` subdivisions (which can exceed `S`), each of
`floor(L/8/S)` bytes, with the remainder bytes appended to the last
subdivision; concatenating the subdivisions in order reproduces the content
exactly.  (For `S > B` the subdivision size is zero and the Python read loop
never terminates, `subdivide_bits = none`.) -/
theorem packet_manager_partitions_content (content : List Bool) (packet_size S : Nat)
    (hS : 1 ≤ S) (halign : 8 ∣ content.length) (hBS : S ≤ content.length / 8) :
    ∃ pm front last,
      packetManagerInit content packet_size S = some pm ∧
      pm.subdivision_size = content.length / 8 / S ∧
      pm.subdivisions = front ++ [last] ∧
      pm.subdivisions.length = (content.length / 8) / (content.length / 8 / S) ∧
      pm.subdivisions.flatten = content ∧
      (∀ c ∈ front, c.length = (content.length / 8 / S) * 8) ∧
      last.length = (content.length / 8 / S) * 8 +
        content.length % ((content.length / 8 / S) * 8) := by
  have hsz1 : 1 ≤ content.length / 8 / S := (Nat.one_le_div_iff (by omega)).mpr hBS
  have hlen8 : content.length / 8 * 8 = content.length := Nat.div_mul_cancel halign
  have hszle : content.length / 8 / S * 8 ≤ content.length := by
    have := Nat.div_le_self (content.length / 8) S
    calc content.length / 8 / S * 8 ≤ content.length / 8 * 8 := by
          exact Nat.mul_le_mul_right 8 this
      _ = content.length := hlen8
  obtain ⟨front, last, hsub, hcount, hflat, hfront, hlast⟩ :=
    subdivide_bits_spec (content.length / 8 / S * 8) content (by omega) hszle
  refine ⟨_, front, last, packetManagerInit_eq content packet_size S _ hsub,
    rfl, rfl, ?_, hflat, hfront, hlast⟩
  show (front ++ [last]).length = _
  rw [hcount]
  set sz := content.length / 8 / S with hsz
  obtain ⟨m, hm⟩ := halign
  rw [hm, show sz * 8 = 8 * sz from by ring,
    Nat.mul_div_mul_left _ _ (by omega : 0 < 8),
    Nat.mul_div_cancel_left m (by omega : 0 < 8)]

theorem packet_manager_partitions_content_witness :
    ∃ pm front last,
      packetManagerInit (List.replicate 88 false) 2 4 = some pm ∧
      pm.subdivision_size = (List.replicate 88 false : List Bool).length / 8 / 4 ∧
      pm.subdivisions = front ++ [last] ∧
      pm.subdivisions.length = ((List.replicate 88 false : List Bool).length / 8) /
        ((List.replicate 88 false : List Bool).length / 8 / 4) ∧
      pm.subdivisions.flatten = List.replicate 88 false ∧
      (∀ c ∈ front,
        c.length = ((List.replicate 88 false : List Bool).length / 8 / 4) * 8) ∧
      last.length = ((List.replicate 88 false : List Bool).length / 8 / 4) * 8 +
        (List.replicate 88 false : List Bool).length %
          (((List.replicate 88 false : List Bool).length / 8 / 4) * 8) :=
  packet_manager_partitions_content (List.replicate 88 false) 2 4
    (by decide) (by decide) (by decide)

theorem get_packetsAux_spec (pb : Nat) (hpb : 0 < pb) :
    ∀ fuel bits, bits.length ≤ fuel →
      ∃ front last, get_packetsAux pb fuel bits = front ++ [last] ∧
        (∀ p ∈ front, p.length = pb) ∧
        last.length < 2 * pb ∧
        (2 * pb ≤ bits.length → pb ≤ last.length) ∧
        (front ++ [last]).flatten = bits ∧
        (bits.length < 2 * pb → front = [] ∧ last = bits) := by
  intro fuel
  induction fuel with
  | zero =>
    intro bits hb
    have hnil : bits = [] := List.eq_nil_of_length_eq_zero (Nat.le_zero.mp hb)
    subst hnil
    exact ⟨[], [], rfl, by simp, by omega, by simp, by simp, by simp⟩
  | succ fuel ih =>
    intro bits hb
    by_cases hc : pb * 2 ≤ bits.length
    · have hunfold : get_packetsAux pb (fuel + 1) bits =
          bits.take pb :: get_packetsAux pb fuel (bits.drop pb) := by
        simp [get_packetsAux, hpb, hc]
      have hdrop : (bits.drop pb).length ≤ fuel := by
        rw [List.length_drop]; omega
      obtain ⟨front, last, heq, hfrontlen, hlastlt, hlastge, hflat, hsingle⟩ :=
        ih (bits.drop pb) hdrop
      refine ⟨bits.take pb :: front, last, ?_, ?_, hlastlt, ?_, ?_, ?_⟩
      · rw [hunfold, heq]; rfl
      · intro p hp
        rcases List.mem_cons.mp hp with h | h
        · subst h; rw [List.length_take]; omega
        · exact hfrontlen p h
      · intro _
        by_cases h2 : 2 * pb ≤ (bits.drop pb).length
        · exact hlastge h2
        · push_neg at h2
          obtain ⟨hf, hl⟩ := hsingle h2
          rw [hl, List.length_drop]; omega
      · simp only [List.cons_append, List.flatten_cons, hflat, List.take_append_drop]
      · intro h2; omega
    · have hunfold : get_packetsAux pb (fuel + 1) bits = [bits] := by
        simp only [get_packetsAux]
        rw [if_neg (by omega)]
      refine ⟨[], bits, hunfold, by simp, by omega, by omega, by simp, fun _ => ⟨rfl, rfl⟩⟩

theorem get_packets_spec (pb : Nat) (bits : List Bool) (hpb : 0 < pb) :
    ∃ front last, get_packets pb bits = front ++ [last] ∧
      (∀ p ∈ front, p.length = pb) ∧
      last.length < 2 * pb ∧
      (2 * pb ≤ bits.length → pb ≤ last.length) ∧
      (front ++ [last]).flatten = bits ∧
      (bits.length < 2 * pb → front = [] ∧ last = bits) :=
  get_packetsAux_spec pb hpb bits.length bits le_rfl

theorem flatten_length_uniform (pb : Nat) : ∀ (l : List (List Bool)),
    (∀ p ∈ l, p.length = pb) → l.flatten.length = l.length * pb := by
  intro l
  induction l with
  | nil => simp
  | cons p rest ih =>
    intro h
    simp only [List.flatten_cons, List.length_append, List.length_cons]
    rw [h p (List.mem_cons_self _ _), ih (fun q hq => h q (List.mem_cons_of_mem _ hq))]
    ring

/-- **C4.** For every nonempty byte-aligned subdivision and every
`packet_size ≥ 1`: the emitted packet sequence consists of full packets of
exactly `packet_size` bytes while at least two full packets remain, then one
final tail packet of 1 to `2*packet_size - 1` bytes (the whole subdivision as
one packet when it is shorter than two packets, in particular when
`packet_size` exceeds the subdivision size); every packet but the last has
exactly `packet_size` bytes, and concatenating the packets in order reproduces
the subdivision's bits exactly. -/
theorem packets_cover_subdivision (sub : List Bool) (packet_size : Nat)
    (hps : 1 ≤ packet_size) (hne : sub ≠ []) (halign : 8 ∣ sub.length) :
    ∃ front last, get_packets (packet_size * 8) sub = front ++ [last] ∧
      (front ++ [last]).flatten = sub ∧
      (∀ p ∈ front, p.length = packet_size * 8) ∧
      1 ≤ last.length / 8 ∧
      last.length / 8 ≤ 2 * packet_size - 1 ∧
      8 ∣ last.length ∧
      (sub.length < 2 * (packet_size * 8) → front = [] ∧ last = sub) := by
  have hpb : 0 < packet_size * 8 := by omega
  obtain ⟨front, last, heq, hfrontlen, hlastlt, hlastge, hflat, hsingle⟩ :=
    get_packets_spec (packet_size * 8) sub hpb
  have hsum : front.length * (packet_size * 8) + last.length = sub.length := by
    have h1 := flatten_length_uniform (packet_size * 8) front hfrontlen
    have h2 : (front ++ [last]).flatten.length = sub.length := by rw [hflat]
    rw [List.flatten_append] at h2
    simp only [List.length_append, List.flatten_cons, List.flatten_nil,
      List.append_nil] at h2
    omega
  have hlast8 : 8 ∣ last.length := by
    obtain ⟨m, hm⟩ := halign
    have hb : front.length * (packet_size * 8) = 8 * (front.length * packet_size) := by
      ring
    omega
  have hlastpos : 0 < last.length := by
    by_cases h2 : 2 * (packet_size * 8) ≤ sub.length
    · have := hlastge h2; omega
    · push_neg at h2
      obtain ⟨_, hl⟩ := hsingle h2
      subst hl
      exact List.length_pos.mpr hne
  obtain ⟨t, ht⟩ := hlast8
  have hdiv : last.length / 8 = t := by omega
  refine ⟨front, last, heq, hflat, hfrontlen, ?_, ?_, ⟨t, ht⟩, hsingle⟩
  · omega
  · omega

theorem packets_cover_subdivision_witness :
    ∃ front last, get_packets (2 * 8) (List.replicate 40 false) = front ++ [last] ∧
      (front ++ [last]).flatten = List.replicate 40 false ∧
      (∀ p ∈ front, p.length = 2 * 8) ∧
      1 ≤ last.length / 8 ∧
      last.length / 8 ≤ 2 * 2 - 1 ∧
      8 ∣ last.length ∧
      ((List.replicate 40 false : List Bool).length < 2 * (2 * 8) →
        front = [] ∧ last = List.replicate 40 false) :=
  packets_cover_subdivision (List.replicate 40 false) 2
    (by decide) (by decide) (by decide)

theorem writeBytes_spec : ∀ (bs output : List Nat) (idx : Nat),
    idx + bs.length ≤ output.length →
    writeBytes output idx bs = output.take idx ++ bs ++ output.drop (idx + bs.length) := by
  intro bs
  induction bs with
  | nil =>
    intro output idx h
    show output = output.take idx ++ [] ++ output.drop (idx + 0)
    simp [List.take_append_drop]
  | cons b rest ih =>
    intro output idx h
    have hlen : idx < output.length := by
      simp only [List.length_cons] at h; omega
    have hrec := ih (output.set idx b) (idx + 1)
      (by rw [List.length_set]; simp only [List.length_cons] at h; omega)
    have hA : (output.take idx).length = idx := by
      rw [List.length_take]; omega
    show writeBytes (output.set idx b) (idx + 1) rest = _
    rw [hrec, List.set_eq_take_cons_drop b hlen]
    have h1 : ((output.take idx) ++ b :: output.drop (idx + 1)).take (idx + 1) =
        output.take idx ++ [b] := by
      rw [List.take_append_eq_append_take, hA, List.take_of_length_le (by omega),
        show idx + 1 - idx = 1 from by omega]
      rfl
    have h2 : ((output.take idx) ++ b :: output.drop (idx + 1)).drop
        (idx + 1 + rest.length) = output.drop (idx + (rest.length + 1)) := by
      rw [List.drop_append_eq_append_drop, hA,
        List.drop_eq_nil_of_le (by omega),
        show idx + 1 + rest.length - idx = rest.length + 1 from by omega]
      simp only [List.nil_append, List.drop_succ_cons, List.drop_drop]
      congr 1
      omega
    rw [h1, h2]
    simp [List.append_assoc]

theorem writeBytes_append : ∀ (b1 b2 output : List Nat) (idx : Nat),
    writeBytes output idx (b1 ++ b2) =
      writeBytes (writeBytes output idx b1) (idx + b1.length) b2 := by
  intro b1
  induction b1 with
  | nil =>
    intro b2 output idx
    simp [writeBytes]
  | cons b rest ih =>
    intro b2 output idx
    show writeBytes (output.set idx b) (idx + 1) (rest ++ b2) = _
    rw [ih]
    show _ = writeBytes (writeBytes (output.set idx b) (idx + 1) rest)
      (idx + (rest.length + 1)) b2
    congr 1
    omega

theorem map_natToBits_uint : ∀ (l : List (List Bool)), (∀ c ∈ l, c.length = 8) →
    l.map (fun c => natToBits 8 (uint c)) = l := by
  intro l
  induction l with
  | nil => simp
  | cons c rest ih =>
    intro h
    have hc : c.length = 8 := h c (List.mem_cons_self _ _)
    have hcc : natToBits 8 (uint c) = c := by
      rw [← hc, natToBits_uint]
    simp only [List.map_cons, hcc,
      ih (fun q hq => h q (List.mem_cons_of_mem _ hq))]

theorem bytesOfBits_spec (bits : List Bool) (halign : 8 ∣ bits.length) :
    ∃ B, bytesOfBits bits = some B ∧ bitsOfBytes B = bits ∧
      8 * B.length = bits.length := by
  obtain ⟨hflat, hmem, hcount, hrest⟩ := readChunks_spec 8 bits (by omega)
  have hrestnil : (readChunks 8 bits).2 = [] := by
    refine List.eq_nil_of_length_eq_zero ?_
    rw [hrest]
    omega
  refine ⟨(readChunks 8 bits).1.map uint, ?_, ?_, ?_⟩
  · show (if (readChunks 8 bits).2 = [] then
        some (List.map uint (readChunks 8 bits).1) else none) =
      some (List.map uint (readChunks 8 bits).1)
    rw [if_pos hrestnil]
  · unfold bitsOfBytes
    rw [List.map_map]
    have hcomp : natToBits 8 ∘ uint = fun c => natToBits 8 (uint c) := rfl
    rw [hcomp, map_natToBits_uint _ hmem]
    rw [hrestnil, List.append_nil] at hflat
    exact hflat
  · rw [List.length_map, hcount]
    omega

theorem bitsOfBytes_append (a b : List Nat) :
    bitsOfBytes (a ++ b) = bitsOfBytes a ++ bitsOfBytes b := by
  simp [bitsOfBytes, List.map_append, List.flatten_append]

theorem writePackets_nil_instructions (opp : Bool) :
    ∀ (packets : List (List Bool)) (idx pi : Nat) (output : List Nat),
      (∀ p ∈ packets, 8 ∣ p.length) →
      ∃ Bs, writePackets [] opp packets idx pi output =
          some (writeBytes output idx Bs) ∧
        bitsOfBytes Bs = packets.flatten ∧
        8 * Bs.length = packets.flatten.length := by
  intro packets
  induction packets with
  | nil =>
    intro idx pi output _
    exact ⟨[], rfl, by simp [bitsOfBytes], by simp⟩
  | cons p ps ih =>
    intro idx pi output h
    obtain ⟨Bp, hBp, hbits, hlen⟩ := bytesOfBits_spec p (h p (List.mem_cons_self _ _))
    have hstep : writePackets [] opp (p :: ps) idx pi output =
        writePackets [] opp ps (idx + Bp.length) (pi + 1) (writeBytes output idx Bp) := by
      show (match bytesOfBits (instructPacket [] opp pi p) with
            | none => none
            | some bs => writePackets [] opp ps (idx + bs.length) (pi + 1)
                (writeBytes output idx bs)) = _
      rw [show instructPacket [] opp pi p = p from rfl, hBp]
    obtain ⟨Brest, hrec, hbits2, hlen2⟩ := ih (idx + Bp.length) (pi + 1)
      (writeBytes output idx Bp) (fun q hq => h q (List.mem_cons_of_mem _ hq))
    refine ⟨Bp ++ Brest, ?_, ?_, ?_⟩
    · rw [hstep, hrec, writeBytes_append]
    · rw [bitsOfBytes_append, hbits, hbits2, List.flatten_cons]
    · simp only [List.length_append, List.flatten_cons, List.length_append]
      omega

theorem instruct_packets_nil (packet_size : Nat) (hps : 0 < packet_size) (opp : Bool)
    (s : List Bool) (hdvd : 8 ∣ s.length) (idx pi : Nat) (output : List Nat) :
    ∃ Bs, instruct_packets (packet_size * 8) s [] opp idx pi output =
        some (writeBytes output idx Bs) ∧
      bitsOfBytes Bs = s ∧ 8 * Bs.length = s.length := by
  obtain ⟨front, last, heq, hfrontlen, _, _, hflat, _⟩ :=
    get_packets_spec (packet_size * 8) s (by omega)
  have hsum : front.length * (packet_size * 8) + last.length = s.length := by
    have h1 := flatten_length_uniform (packet_size * 8) front hfrontlen
    have h2 : (front ++ [last]).flatten.length = s.length := by rw [hflat]
    rw [List.flatten_append] at h2
    simp only [List.length_append, List.flatten_cons, List.flatten_nil,
      List.append_nil] at h2
    omega
  have hpdvd : ∀ p ∈ get_packets (packet_size * 8) s, 8 ∣ p.length := by
    rw [heq]
    intro p hp
    rcases List.mem_append.mp hp with h | h
    · rw [hfrontlen p h]; exact ⟨packet_size, by ring⟩
    · simp only [List.mem_singleton] at h
      subst h
      obtain ⟨m, hm⟩ := hdvd
      have hb : front.length * (packet_size * 8) =
          8 * (front.length * packet_size) := by ring
      omega
  obtain ⟨Bs, h1, h2, h3⟩ := writePackets_nil_instructions opp
    (get_packets (packet_size * 8) s) idx pi output hpdvd
  refine ⟨Bs, h1, ?_, ?_⟩
  · rw [h2, heq, hflat]
  · rw [h3, heq, hflat]

theorem instructWorkers_nil_instructions (packet_size sz ppsd : Nat)
    (hps : 0 < packet_size) (opp : Bool) :
    ∀ (subs : List (List Bool)) (i : Nat) (output : List Nat),
      (∀ s ∈ subs, 8 ∣ s.length) →
      (∀ s ∈ subs.dropLast, s.length = sz * 8) →
      ∃ Bs, instructWorkers (packet_size * 8) sz ppsd [] opp subs i output =
          some (writeBytes output (i * sz) Bs) ∧
        bitsOfBytes Bs = subs.flatten ∧
        8 * Bs.length = subs.flatten.length := by
  intro subs
  induction subs with
  | nil =>
    intro i output _ _
    exact ⟨[], rfl, by simp [bitsOfBytes], by simp⟩
  | cons s rest ih =>
    intro i output hdvd hfront
    obtain ⟨Bs1, hw1, hb1, hl1⟩ := instruct_packets_nil packet_size hps opp s
      (hdvd s (List.mem_cons_self _ _)) (i * sz) (i * ppsd) output
    have hstep : instructWorkers (packet_size * 8) sz ppsd [] opp (s :: rest) i output =
        instructWorkers (packet_size * 8) sz ppsd [] opp rest (i + 1)
          (writeBytes output (i * sz) Bs1) := by
      show (match instruct_packets (packet_size * 8) s [] opp (i * sz) (i * ppsd)
            output with
            | none => none
            | some output2 => instructWorkers (packet_size * 8) sz ppsd [] opp rest
                (i + 1) output2) = _
      rw [hw1]
    cases rest with
    | nil =>
      refine ⟨Bs1, ?_, by simpa using hb1, by simpa using hl1⟩
      rw [hstep]
      rfl
    | cons s2 rest2 =>
      have hslen : s.length = sz * 8 := by
        apply hfront
        rw [List.dropLast_cons₂]
        exact List.mem_cons_self _ _
      have hBs1len : Bs1.length = sz := by omega
      obtain ⟨Bs2, hw2, hb2, hl2⟩ := ih (i + 1) (writeBytes output (i * sz) Bs1)
        (fun q hq => hdvd q (List.mem_cons_of_mem _ hq))
        (by
          intro q hq
          apply hfront
          rw [List.dropLast_cons₂]
          exact List.mem_cons_of_mem _ hq)
      refine ⟨Bs1 ++ Bs2, ?_, ?_, ?_⟩
      · rw [hstep, hw2, writeBytes_append, hBs1len]
        have harith : i * sz + sz = (i + 1) * sz := by ring
        rw [harith]
      · rw [bitsOfBytes_append, hb1, hb2]
        simp [List.flatten_cons]
      · simp only [List.flatten_cons, List.length_append] at hl2
        simp only [List.flatten_cons, List.length_append]
        omega

theorem instruct_eq (pm : PacketManager) (instructions : List Instruction)
    (opp : Bool) (output : List Nat) (subs2 : List (List Bool))
    (h1 : instructWorkers (pm.packet_size * 8) pm.subdivision_size
      pm.packets_per_subdivision instructions opp pm.subdivisions 0
      (List.replicate pm.byteCount 0) = some output)
    (h2 : subdivide_bits (pm.subdivision_size * 8) (bitsOfBytes output) = some subs2) :
    instruct pm instructions opp =
      some { pm with content := bitsOfBytes output, subdivisions := subs2 } := by
  simp only [instruct, h1, h2]

/-- **C10.** For every byte-aligned content whose byte count is at least the
subdivision count (and positive packet size and subdivision count, the
parameters every `PacketManager` is built with), calling `instruct` with an
empty instruction list in either mode terminates and leaves the content
bit-for-bit unchanged and `packet_count` unchanged: the
partition-into-subdivisions-and-packets, per-byte write-out to the shared
output buffer, and rebuild round trip is the identity when no operation is
applied. -/
theorem instruct_no_instructions_is_identity (content : List Bool)
    (packet_size S : Nat) (opp : Bool) (hps : 1 ≤ packet_size) (hS : 1 ≤ S)
    (halign : 8 ∣ content.length) (hBS : S ≤ content.length / 8) :
    ∃ pm pm2, packetManagerInit content packet_size S = some pm ∧
      instruct pm [] opp = some pm2 ∧
      pm2.content = content ∧
      pm2.packet_count = pm.packet_count := by
  have hsz1 : 1 ≤ content.length / 8 / S := (Nat.one_le_div_iff (by omega)).mpr hBS
  have hlen8 : content.length / 8 * 8 = content.length := Nat.div_mul_cancel halign
  have hszle : content.length / 8 / S * 8 ≤ content.length := by
    have hle := Nat.div_le_self (content.length / 8) S
    calc content.length / 8 / S * 8 ≤ content.length / 8 * 8 :=
          Nat.mul_le_mul_right 8 hle
      _ = content.length := hlen8
  obtain ⟨front, last, hsub, hcount, hflat, hfront, hlast⟩ :=
    subdivide_bits_spec (content.length / 8 / S * 8) content (by omega) hszle
  have hinit := packetManagerInit_eq content packet_size S _ hsub
  have hdvd : ∀ s ∈ front ++ [last], 8 ∣ s.length := by
    intro s hs
    rcases List.mem_append.mp hs with h | h
    · rw [hfront s h]
      exact ⟨content.length / 8 / S, by ring⟩
    · simp only [List.mem_singleton] at h
      subst h
      rw [hlast]
      have hmod : (8 : Nat) ∣ content.length % (content.length / 8 / S * 8) :=
        (Nat.dvd_mod_iff ⟨content.length / 8 / S, by ring⟩).mpr halign
      exact Nat.dvd_add ⟨content.length / 8 / S, by ring⟩ hmod
  have hfrontc : ∀ s ∈ (front ++ [last]).dropLast, s.length =
      content.length / 8 / S * 8 := by
    rw [List.dropLast_concat]
    exact hfront
  obtain ⟨Bs, hw, hb, hl⟩ := instructWorkers_nil_instructions packet_size
    (content.length / 8 / S)
    (count_packets packet_size (content.length / 8 / S) (front ++ [last])).2
    (by omega) opp (front ++ [last]) 0
    (List.replicate (content.length / 8) 0) hdvd hfrontc
  have hcontent2 : bitsOfBytes Bs = content := by rw [hb, hflat]
  have hBslen : Bs.length = content.length / 8 := by
    rw [hflat] at hl
    omega
  have houtput : writeBytes (List.replicate (content.length / 8) 0)
      (0 * (content.length / 8 / S)) Bs = Bs := by
    rw [Nat.zero_mul,
      writeBytes_spec _ _ _ (by simp [hBslen])]
    simp [hBslen]
  rw [houtput] at hw
  refine ⟨_, _, hinit, instruct_eq _ [] opp Bs (front ++ [last]) hw
    (by rw [hcontent2]; exact hsub), ?_, ?_⟩
  · exact hcontent2
  · rfl

theorem instruct_no_instructions_is_identity_witness :
    ∃ pm pm2, packetManagerInit (List.replicate 88 false) 2 4 = some pm ∧
      instruct pm [] true = some pm2 ∧
      pm2.content = List.replicate 88 false ∧
      pm2.packet_count = pm.packet_count :=
  instruct_no_instructions_is_identity (List.replicate 88 false) 2 4 true
    (by decide) (by decide) (by decide) (by decide)

theorem subdivideLoopFuel_zero_size (bits : List Bool) :
    ∀ fuel, subdivideLoopFuel 0 bits fuel = none := by
  intro fuel
  induction fuel with
  | zero => rfl
  | succ fuel ih =>
    show (if 0 ≤ bits.length then
        match subdivideLoopFuel 0 (bits.drop 0) fuel with
        | some (cs, rest) => some (bits.take 0 :: cs, rest)
        | none => none
      else some ([], bits)) = none
    rw [if_pos (Nat.zero_le _), List.drop_zero, ih]

/-- **C5.** The claim says `encrypt()` with zero sources terminates without
error, yields zero-length Content, and still writes the Config and Table
files.  In the code, `FileManager.assemble()` with no paths yields the empty
bitstream, `PacketManager.__init__` then computes
`subdivision_size = (0 // 8) // cpu_count = 0`, and `__subdivide_bits` enters
`while length - bits.pos >= 0:` whose zero-bit reads never advance `pos`: no
iteration budget reaches the loop's exit, `__init__` never returns, and
`encrypt` hangs before producing Content or writing any file. -/
theorem encrypt_zero_sources_never_returns (S fuel : Nat) :
    subdivideLoopFuel (assembleNoSources.length / 8 / S * 8) assembleNoSources fuel
      = none ∧
    packetManagerInit assembleNoSources 256 S = none := by
  have hsize : assembleNoSources.length / 8 / S * 8 = 0 := by
    simp [assembleNoSources, Nat.zero_div]
  constructor
  · rw [hsize]
    exact subdivideLoopFuel_zero_size assembleNoSources fuel
  · simp [packetManagerInit, assembleNoSources, Nat.zero_div, subdivide_bits]

theorem wrap_arithmetic_correct_witness :
    uint (add [true, true, false] 3 false) =
      (uint [true, true, false] + 3) % 2 ^ ([true, true, false] : List Bool).length ∧
    (uint (sub [true, true, false] 3 false) : Int) =
      ((uint [true, true, false] : Int) - 3) % 2 ^ ([true, true, false] : List Bool).length ∧
    (add [true, true, false] 3 false).length = ([true, true, false] : List Bool).length ∧
    uint (add [true, true, false] 3 false) < 2 ^ ([true, true, false] : List Bool).length ∧
    (sub [true, true, false] 3 false).length = ([true, true, false] : List Bool).length ∧
    uint (sub [true, true, false] 3 false) < 2 ^ ([true, true, false] : List Bool).length ∧
    sub (add [true, true, false] 3 false) 3 false = [true, true, false] :=
  wrap_arithmetic_correct [true, true, false] 3 (by decide)

theorem read_mappings_loop_unknown_code (symbol_length : Nat) (ops : List Nat)
    (imported : List Bool) :
    ∀ (i fuel head : Nat),
      head + 16 * i < imported.length →
      (pySlice imported (head + 8 + 16 * i) (head + 16 + 16 * i)).length = 8 →
      uint (pySlice imported (head + 8 + 16 * i) (head + 16 + 16 * i)) < 128 →
      uint (pySlice imported (head + 8 + 16 * i) (head + 16 + 16 * i)) ∉ ops →
      read_mappings_loop symbol_length ops imported fuel head = none := by
  intro i
  induction i with
  | zero =>
    intro fuel head hlt hlen hascii habsent
    simp only [Nat.mul_zero, Nat.add_zero] at hlt hlen hascii habsent
    cases fuel with
    | zero => rfl
    | succ fuel =>
      simp only [read_mappings_loop]
      rw [if_pos (by omega : head < imported.length),
        if_pos ⟨hlen, hascii⟩, if_neg habsent]
  | succ i ih =>
    intro fuel head hlt hlen hascii habsent
    cases fuel with
    | zero => rfl
    | succ fuel =>
      have e1 : head + 16 + 8 + 16 * i = head + 8 + 16 * (i + 1) := by ring
      have e2 : head + 16 + 16 + 16 * i = head + 16 + 16 * (i + 1) := by ring
      have hnone := ih fuel (head + 16) (by omega)
        (by rw [e1, e2]; exact hlen)
        (by rw [e1, e2]; exact hascii)
        (by rw [e1, e2]; exact habsent)
      simp only [read_mappings_loop]
      rw [if_pos (by omega : head < imported.length)]
      by_cases hcond : (pySlice imported (head + 8) (head + 16)).length = 8 ∧
          uint (pySlice imported (head + 8) (head + 16)) < 128
      · rw [if_pos hcond]
        by_cases hmem : uint (pySlice imported (head + 8) (head + 16)) ∈ ops
        · rw [if_pos hmem, hnone]
        · rw [if_neg hmem]
      · rw [if_neg hcond]

/-- **C9.** Loading a `Table` from serialized bytes fails with a format error
whenever any record's decoded 8-bit ASCII operation code is absent from the
operations catalog: the parse aborts at that point, the constructor raises,
and no partially built mapping is ever applied — the load yields either the
complete parsed mapping or nothing (`none`). -/
theorem table_load_aborts_on_unknown_code (ops : List Nat) (imported : List Bool)
    (i : Nat)
    (hrec : 8 + 16 * i < imported.length)
    (hlen : (pySlice imported (16 + 16 * i) (24 + 16 * i)).length = 8)
    (hascii : uint (pySlice imported (16 + 16 * i) (24 + 16 * i)) < 128)
    (habsent : uint (pySlice imported (16 + 16 * i) (24 + 16 * i)) ∉ ops) :
    read_mappings (uint (pySlice imported 0 8)) ops imported = none ∧
    table_load ops imported = none := by
  have e1 : 8 + 8 + 16 * i = 16 + 16 * i := by ring
  have e2 : 8 + 16 + 16 * i = 24 + 16 * i := by ring
  have h1 : read_mappings (uint (pySlice imported 0 8)) ops imported = none := by
    unfold read_mappings
    exact read_mappings_loop_unknown_code _ ops imported i imported.length 8
      (by omega)
      (by rw [e1, e2]; exact hlen)
      (by rw [e1, e2]; exact hascii)
      (by rw [e1, e2]; exact habsent)
  refine ⟨h1, ?_⟩
  unfold table_load
  rw [h1]

theorem table_load_aborts_on_unknown_code_witness :
    read_mappings
        (uint (pySlice (natToBits 8 6 ++ natToBits 8 0 ++ natToBits 8 122) 0 8))
        [118, 120, 97, 115, 108, 114]
        (natToBits 8 6 ++ natToBits 8 0 ++ natToBits 8 122) = none ∧
      table_load [118, 120, 97, 115, 108, 114]
        (natToBits 8 6 ++ natToBits 8 0 ++ natToBits 8 122) = none :=
  table_load_aborts_on_unknown_code [118, 120, 97, 115, 108, 114]
    (natToBits 8 6 ++ natToBits 8 0 ++ natToBits 8 122) 0
    (by decide) (by decide) (by decide) (by decide)

theorem log2Aux_eq_log2 : ∀ (fuel n : Nat), n ≤ fuel → log2Aux fuel n = Nat.log2 n := by
  intro fuel
  induction fuel with
  | zero =>
    intro n hn
    have h0 : n = 0 := by omega
    subst h0
    unfold Nat.log2
    rfl
  | succ fuel ih =>
    intro n hn
    unfold Nat.log2
    show (if n ≥ 2 then log2Aux fuel (n / 2) + 1 else 0) = _
    by_cases h : n ≥ 2
    · rw [if_pos h, if_pos h, ih (n / 2) (by omega)]
    · rw [if_neg h, if_neg h]

theorem fewest_bits_pos (n : Nat) : 1 ≤ fewest_bits n := by
  unfold fewest_bits
  split_ifs <;> omega

theorem lt_two_pow_fewest_bits (n : Nat) : n < 2 ^ fewest_bits n := by
  unfold fewest_bits
  split_ifs with h
  · simp [h]
  · rw [log2Aux_eq_log2 n n le_rfl, Nat.log2_eq_log_two]
    exact Nat.lt_pow_succ_log_self (by omega) n

theorem fewest_bits_le_eight_mul (n : Nat) : fewest_bits n ≤ 8 * fewest_bytes n := by
  unfold fewest_bytes
  omega

theorem fewest_bytes_pos (n : Nat) : 1 ≤ fewest_bytes n := by
  have := fewest_bits_pos n
  unfold fewest_bytes
  omega

theorem fewest_bits_mono {a b : Nat} (h : a ≤ b) : fewest_bits a ≤ fewest_bits b := by
  unfold fewest_bits
  split_ifs with h1 h2
  · omega
  · omega
  · omega
  · rw [log2Aux_eq_log2 a a le_rfl, log2Aux_eq_log2 b b le_rfl,
      Nat.log2_eq_log_two, Nat.log2_eq_log_two]
    have := Nat.log_mono_right (b := 2) h
    omega

theorem fewest_bytes_mono {a b : Nat} (h : a ≤ b) : fewest_bytes a ≤ fewest_bytes b := by
  unfold fewest_bytes
  have := fewest_bits_mono h
  omega

theorem fewest_bytes_max (a b : Nat) :
    fewest_bytes (max a b) = max (fewest_bytes a) (fewest_bytes b) := by
  rcases Nat.le_total a b with h | h
  · rw [Nat.max_eq_right h, Nat.max_eq_right (fewest_bytes_mono h)]
  · rw [Nat.max_eq_left h, Nat.max_eq_left (fewest_bytes_mono h)]

theorem le_foldl_max_init : ∀ (l : List Nat) (a : Nat), a ≤ l.foldl max a
  | [], _ => le_rfl
  | x :: rest, a =>
    le_trans (Nat.le_max_left a x) (le_foldl_max_init rest (max a x))

theorem le_foldl_max_mem : ∀ (l : List Nat) (a x : Nat), x ∈ l → x ≤ l.foldl max a
  | [], _, _, hx => absurd hx (List.not_mem_nil _)
  | y :: rest, a, x, hx => by
    rcases List.mem_cons.mp hx with h | h
    · subst h
      exact le_trans (Nat.le_max_right a x) (le_foldl_max_init rest (max a x))
    · exact le_foldl_max_mem rest (max a y) x h

theorem foldl_max_le : ∀ (l : List Nat) (a c : Nat), a ≤ c → (∀ x ∈ l, x ≤ c) →
    l.foldl max a ≤ c
  | [], _, _, ha, _ => ha
  | x :: rest, a, c, ha, hl => by
    refine foldl_max_le rest (max a x) c ?_ (fun q hq => hl q (List.mem_cons_of_mem _ hq))
    exact Nat.max_le.mpr ⟨ha, hl x (List.mem_cons_self _ _)⟩

theorem foldl_max_map_fewest_bytes : ∀ (l : List Nat) (a : Nat),
    (l.map fewest_bytes).foldl max (fewest_bytes a) = fewest_bytes (l.foldl max a)
  | [], _ => rfl
  | x :: rest, a => by
    simp only [List.map_cons, List.foldl_cons]
    rw [← fewest_bytes_max]
    exact foldl_max_map_fewest_bytes rest (max a x)

theorem encodeArgs_spec (width : Nat) (hw : 1 ≤ width) : ∀ (args : List Nat),
    (∀ a ∈ args, a < 2 ^ width) →
    encodeArgs width args = some ((args.map (natToBits width)).flatten) := by
  intro args
  induction args with
  | nil => intro _; rfl
  | cons a rest ih =>
    intro h
    have hba : bitsOfUint width a = some (natToBits width a) :=
      if_pos ⟨hw, h a (List.mem_cons_self _ _)⟩
    have hrest := ih (fun q hq => h q (List.mem_cons_of_mem _ hq))
    simp only [encodeArgs, hba, hrest, List.map_cons, List.flatten_cons]

theorem build_record_spec (table : OpName → List Bool) (w : Nat) (ins : Instruction)
    (hw : w ≤ 7) (hcnt : ins.args.length < 2 ^ (8 - w))
    (hfb : ∀ a ∈ ins.start :: ins.stop :: ins.args, fewest_bytes a ≤ 255) :
    build_record table (8 - w) ins = some
      (table ins.op ++
        natToBits (8 - w) ins.args.length ++
        natToBits 8 (fewest_bytes ((ins.start :: ins.stop :: ins.args).foldl max 0)) ++
        (((ins.start :: ins.stop :: ins.args)).map
          (natToBits
            (fewest_bytes ((ins.start :: ins.stop :: ins.args).foldl max 0) * 8))).flatten) := by
  have hobw_eq : ((ins.start :: ins.stop :: ins.args).map fewest_bytes).foldl max 0 =
      fewest_bytes ((ins.start :: ins.stop :: ins.args).foldl max 0) := by
    simp only [List.map_cons, List.foldl_cons, Nat.zero_max]
    rw [← fewest_bytes_max, foldl_max_map_fewest_bytes]
  have hobw255 : fewest_bytes ((ins.start :: ins.stop :: ins.args).foldl max 0) ≤ 255 := by
    rw [← hobw_eq]
    refine foldl_max_le _ 0 255 (by omega) ?_
    intro x hx
    obtain ⟨a, ha, hfa⟩ := List.mem_map.mp hx
    rw [← hfa]
    exact hfb a ha
  have hobw1 : 1 ≤ fewest_bytes ((ins.start :: ins.stop :: ins.args).foldl max 0) :=
    fewest_bytes_pos _
  have hcntbits : bitsOfUint (8 - w) ins.args.length =
      some (natToBits (8 - w) ins.args.length) :=
    if_pos ⟨by omega, hcnt⟩
  have hfbbits : bitsOfUint 8
      (((ins.start :: ins.stop :: ins.args).map fewest_bytes).foldl max 0) =
      some (natToBits 8
        (fewest_bytes ((ins.start :: ins.stop :: ins.args).foldl max 0))) := by
    rw [hobw_eq]
    exact if_pos ⟨by omega, by omega⟩
  have hargbound : ∀ a ∈ ins.start :: ins.stop :: ins.args,
      a < 2 ^ (((ins.start :: ins.stop :: ins.args).map fewest_bytes).foldl max 0 * 8) := by
    intro a ha
    have h1 : a < 2 ^ fewest_bits a := lt_two_pow_fewest_bits a
    have h2 : fewest_bits a ≤ 8 * fewest_bytes a := fewest_bits_le_eight_mul a
    have h3 : fewest_bytes a ≤ fewest_bytes ((ins.start :: ins.stop :: ins.args).foldl max 0) :=
      fewest_bytes_mono (le_foldl_max_mem _ 0 a ha)
    refine lt_of_lt_of_le h1 (Nat.pow_le_pow_right (by omega) ?_)
    rw [hobw_eq]
    omega
  have hargsenc := encodeArgs_spec
    (((ins.start :: ins.stop :: ins.args).map fewest_bytes).foldl max 0 * 8)
    (by rw [hobw_eq]; omega) (ins.start :: ins.stop :: ins.args) hargbound
  show (match bitsOfUint (8 - w) ins.args.length,
      bitsOfUint 8 (((ins.start :: ins.stop :: ins.args).map fewest_bytes).foldl max 0),
      encodeArgs ((((ins.start :: ins.stop :: ins.args)).map fewest_bytes).foldl max 0 * 8)
        (ins.start :: ins.stop :: ins.args) with
    | some cnt, some fb, some argBits => some (table ins.op ++ cnt ++ fb ++ argBits)
    | _, _, _ => none) = _
  rw [hcntbits, hfbbits, hargsenc, hobw_eq]

theorem buildRecords_spec (table : OpName → List Bool) (w : Nat) (hw : w ≤ 7) :
    ∀ (instrs : List Instruction),
      (∀ ins ∈ instrs, ins.args.length < 2 ^ (8 - w)) →
      (∀ ins ∈ instrs, ∀ a ∈ ins.start :: ins.stop :: ins.args, fewest_bytes a ≤ 255) →
      buildRecords table (8 - w) instrs = some
        ((instrs.map (fun ins =>
          table ins.op ++
          natToBits (8 - w) ins.args.length ++
          natToBits 8 (fewest_bytes ((ins.start :: ins.stop :: ins.args).foldl max 0)) ++
          (((ins.start :: ins.stop :: ins.args)).map
            (natToBits
              (fewest_bytes ((ins.start :: ins.stop :: ins.args).foldl max 0) * 8))).flatten)).flatten) := by
  intro instrs
  induction instrs with
  | nil => intro _ _; rfl
  | cons ins rest ih =>
    intro hcnt hfb
    have hrec := build_record_spec table w ins hw (hcnt ins (List.mem_cons_self _ _))
      (hfb ins (List.mem_cons_self _ _))
    have hrest := ih (fun q hq => hcnt q (List.mem_cons_of_mem _ hq))
      (fun q hq => hfb q (List.mem_cons_of_mem _ hq))
    simp only [buildRecords, hrec, hrest, List.map_cons, List.flatten_cons]

/-- **C6 (counterexample).** The claim admits symbol width `w ≤ 8`, but at
`w = 8` the extra-operand-count field has `8 - 8 = 0` bits and
`bs.Bits(uint=..., length=0)` always raises `CreationError` — even a single
arity-0 instruction cannot be encoded at all, let alone with the described
layout. -/
theorem key_encoding_impossible_at_width_eight :
    build_key (fun _ => List.replicate 8 true) (8 - 8)
      [{ op := OpName.reverse, start := 0, stop := 0, args := [] }] = none := by
  rfl

/-- **C6 (amended).** For every symbol table of width `w ≤ 7` and every
instruction list whose extra-operand counts fit the `8 - w`-bit count field
(the catalog's arities 0 and 1 always do) and whose operand byte widths fit
the 8-bit width field, the encoded key lays the instructions out in reverse
of generation order and each record is exactly: the operation's symbol
(`w` bits), the count of extra operands in `8 - w` bits, an operand byte
width in 8 bits equal to the fewest bytes needed for the largest of
{start, stop, extra operands}, then start, stop and each extra operand, each
written in exactly `operand_byte_width * 8` bits.  (At `w = 8` encoding
always raises.) -/
theorem key_encoding_layout (table : OpName → List Bool) (w : Nat)
    (instructions : List Instruction) (hw : w ≤ 7)
    (hsym : ∀ op, (table op).length = w)
    (hcnt : ∀ ins ∈ instructions, ins.args.length < 2 ^ (8 - w))
    (hfb : ∀ ins ∈ instructions, ∀ a ∈ ins.start :: ins.stop :: ins.args,
      fewest_bytes a ≤ 255) :
    build_key table (8 - w) instructions = some
      ((instructions.reverse.map (fun ins =>
        table ins.op ++
        natToBits (8 - w) ins.args.length ++
        natToBits 8 (fewest_bytes ((ins.start :: ins.stop :: ins.args).foldl max 0)) ++
        (((ins.start :: ins.stop :: ins.args)).map
          (natToBits
            (fewest_bytes ((ins.start :: ins.stop :: ins.args).foldl max 0) * 8))).flatten)).flatten) ∧
    (∀ ins ∈ instructions,
      (table ins.op).length = w ∧
      (natToBits (8 - w) ins.args.length).length = 8 - w ∧
      (natToBits 8
        (fewest_bytes ((ins.start :: ins.stop :: ins.args).foldl max 0))).length = 8 ∧
      ∀ a ∈ ins.start :: ins.stop :: ins.args,
        (natToBits
          (fewest_bytes ((ins.start :: ins.stop :: ins.args).foldl max 0) * 8) a).length =
        fewest_bytes ((ins.start :: ins.stop :: ins.args).foldl max 0) * 8) := by
  constructor
  · unfold build_key
    exact buildRecords_spec table w hw instructions.reverse
      (fun q hq => hcnt q (List.mem_reverse.mp hq))
      (fun q hq => hfb q (List.mem_reverse.mp hq))
  · intro ins _
    exact ⟨hsym ins.op, natToBits_length _ _, natToBits_length _ _,
      fun a _ => natToBits_length _ _⟩

theorem key_encoding_layout_witness :
    build_key (fun _ => List.replicate 6 false) (8 - 6)
      [{ op := OpName.add, start := 1, stop := 3, args := [2] }] = some
      ((([({ op := OpName.add, start := 1, stop := 3, args := [2] } : Instruction)]).reverse.map (fun ins =>
        (fun _ : OpName => List.replicate 6 false) ins.op ++
        natToBits (8 - 6) ins.args.length ++
        natToBits 8 (fewest_bytes ((ins.start :: ins.stop :: ins.args).foldl max 0)) ++
        (((ins.start :: ins.stop :: ins.args)).map
          (natToBits
            (fewest_bytes ((ins.start :: ins.stop :: ins.args).foldl max 0) * 8))).flatten)).flatten) ∧
    (∀ ins ∈ [({ op := OpName.add, start := 1, stop := 3, args := [2] } : Instruction)],
      ((fun _ : OpName => List.replicate 6 false) ins.op).length = 6 ∧
      (natToBits (8 - 6) ins.args.length).length = 8 - 6 ∧
      (natToBits 8
        (fewest_bytes ((ins.start :: ins.stop :: ins.args).foldl max 0))).length = 8 ∧
      ∀ a ∈ ins.start :: ins.stop :: ins.args,
        (natToBits
          (fewest_bytes ((ins.start :: ins.stop :: ins.args).foldl max 0) * 8) a).length =
        fewest_bytes ((ins.start :: ins.stop :: ins.args).foldl max 0) * 8) :=
  key_encoding_layout (fun _ => List.replicate 6 false) 6
    [{ op := OpName.add, start := 1, stop := 3, args := [2] }]
    (by decide) (fun op => by cases op <;> rfl) (by decide) (by decide)

theorem getD_eq_get_of_lt {α : Type} (l : List α) (d : α) (j : Nat)
    (h : j < l.length) : l.getD j d = l.get ⟨j, h⟩ := by
  simp [List.getD_eq_getElem?_getD, List.getElem?_eq_getElem h]

theorem range_map_getD {α : Type} (d : α) (l : List α) :
    (List.range l.length).map (fun i => l.getD i d) = l := by
  apply List.ext_getElem (by simp)
  intro i h1 h2
  simp only [List.getElem_map, List.getElem_range]
  rw [getD_eq_get_of_lt l d i h2]
  simp [List.get_eq_getElem]

theorem insertAt_zero (bits : List Bool) (b : Bool) :
    insertAt bits b 0 = b :: bits := rfl

theorem insertAt_cons_succ (x : Bool) (rest : List Bool) (b : Bool) (pos : Nat) :
    insertAt (x :: rest) b (pos + 1) = x :: insertAt rest b pos := rfl

theorem insertAt_length (bits : List Bool) (b : Bool) (pos : Nat) :
    (insertAt bits b pos).length = bits.length + 1 := by
  unfold insertAt
  rw [List.length_append, List.length_take, List.length_cons, List.length_drop]
  omega

theorem insertAt_getD_lt : ∀ (bits : List Bool) (b : Bool) (pos p : Nat),
    p < pos → p < bits.length →
    (insertAt bits b pos).getD p false = bits.getD p false
  | [], _, _, p, _, hlen => by simp at hlen
  | x :: rest, b, 0, p, hp, _ => by omega
  | x :: rest, b, pos + 1, 0, _, _ => by
    rw [insertAt_cons_succ]
    rfl
  | x :: rest, b, pos + 1, p + 1, hp, hlen => by
    rw [insertAt_cons_succ, List.getD_cons_succ, List.getD_cons_succ]
    exact insertAt_getD_lt rest b pos p (by omega) (by simp at hlen; omega)

theorem insertAt_getD_self : ∀ (bits : List Bool) (b : Bool) (pos : Nat),
    pos ≤ bits.length → (insertAt bits b pos).getD pos false = b
  | _, _, 0, _ => rfl
  | [], _, pos + 1, h => by simp at h
  | x :: rest, b, pos + 1, h => by
    rw [insertAt_cons_succ, List.getD_cons_succ]
    exact insertAt_getD_self rest b pos (by simp at h; omega)

theorem removeAt_cons_succ (x : Bool) (rest : List Bool) (pos : Nat) :
    removeAt (x :: rest) (pos + 1) = x :: removeAt rest pos := rfl

theorem removeAt_insertAt : ∀ (bits : List Bool) (b : Bool) (pos : Nat),
    pos ≤ bits.length → removeAt (insertAt bits b pos) pos = bits
  | bits, b, 0, _ => by
    rw [insertAt_zero]
    rfl
  | [], _, pos + 1, h => by simp at h
  | x :: rest, b, pos + 1, h => by
    rw [insertAt_cons_succ, removeAt_cons_succ]
    rw [removeAt_insertAt rest b pos (by simp at h; omega)]

theorem insertOrdinals_length (obi : Nat) : ∀ (ord : List Bool) (i : Nat)
    (bits : List Bool),
    (insertOrdinals obi i ord bits).length = bits.length + ord.length
  | [], _, _ => rfl
  | b :: rest, i, bits => by
    show (insertOrdinals obi (i + 1) rest (insertAt bits b (i * obi))).length = _
    rw [insertOrdinals_length obi rest (i + 1) _, insertAt_length]
    simp only [List.length_cons]
    omega

theorem insertOrdinals_getD_lt (obi : Nat) : ∀ (ord : List Bool) (i : Nat)
    (bits : List Bool) (p : Nat), p < i * obi → p < bits.length →
    (insertOrdinals obi i ord bits).getD p false = bits.getD p false
  | [], _, _, _, _, _ => rfl
  | b :: rest, i, bits, p, hp, hlen => by
    show (insertOrdinals obi (i + 1) rest (insertAt bits b (i * obi))).getD p false = _
    rw [insertOrdinals_getD_lt obi rest (i + 1) _ p
        (lt_of_lt_of_le hp (Nat.mul_le_mul_right obi (by omega)))
        (by rw [insertAt_length]; omega),
      insertAt_getD_lt bits b (i * obi) p hp hlen]

theorem insertOrdinals_getD_at (obi : Nat) (hobi : 1 ≤ obi) :
    ∀ (ord : List Bool) (i : Nat) (bits : List Bool),
      (∀ j, j < ord.length → (i + j) * obi ≤ bits.length + j) →
      ∀ j, j < ord.length →
        (insertOrdinals obi i ord bits).getD ((i + j) * obi) false = ord.getD j false
  | [], _, _, _, j, hj => by simp at hj
  | b :: rest, i, bits, hvalid, 0, _ => by
    show (insertOrdinals obi (i + 1) rest (insertAt bits b (i * obi))).getD
        ((i + 0) * obi) false = b
    have he : (i + 0) * obi = i * obi := by ring
    have hstep : i * obi + obi = (i + 1) * obi := by ring
    have hv := hvalid 0 (by simp)
    have h0 : i * obi ≤ bits.length := by omega
    rw [he, insertOrdinals_getD_lt obi rest (i + 1) _ _ (by omega)
        (by rw [insertAt_length]; omega),
      insertAt_getD_self bits b (i * obi) h0]
  | b :: rest, i, bits, hvalid, j + 1, hj => by
    show (insertOrdinals obi (i + 1) rest (insertAt bits b (i * obi))).getD
        ((i + (j + 1)) * obi) false = _
    have hvalid2 : ∀ t, t < rest.length →
        ((i + 1) + t) * obi ≤ (insertAt bits b (i * obi)).length + t := by
      intro t ht
      rw [insertAt_length]
      have := hvalid (t + 1) (by simp only [List.length_cons]; omega)
      have he : (i + (t + 1)) * obi = ((i + 1) + t) * obi := by ring
      omega
    have hrec := insertOrdinals_getD_at obi hobi rest (i + 1)
      (insertAt bits b (i * obi)) hvalid2 j (by simp at hj; omega)
    have he : ((i + 1) + j) * obi = (i + (j + 1)) * obi := by ring
    rw [he] at hrec
    rw [hrec]
    rfl

theorem insertOrdinals_append_bit (obi : Nat) : ∀ (ord : List Bool) (i : Nat)
    (bits : List Bool) (b : Bool),
    insertOrdinals obi i (ord ++ [b]) bits =
      insertAt (insertOrdinals obi i ord bits) b ((i + ord.length) * obi)
  | [], i, bits, b => by
    show insertAt bits b (i * obi) = insertAt bits b ((i + 0) * obi)
    have he : (i + 0) * obi = i * obi := by ring
    rw [he]
  | c :: rest, i, bits, b => by
    show insertOrdinals obi (i + 1) (rest ++ [b]) (insertAt bits c (i * obi)) = _
    rw [insertOrdinals_append_bit obi rest (i + 1) _ b]
    have he : ((i + 1) + rest.length) * obi = (i + (rest.length + 1)) * obi := by ring
    rw [he]
    rfl

theorem removeOrdinals_insertOrdinals (obi : Nat) (ord : List Bool) :
    ∀ (bits : List Bool),
      (∀ j, j < ord.length → j * obi ≤ bits.length + j) →
      removeOrdinals obi ord.length (insertOrdinals obi 0 ord bits) = bits := by
  induction ord using List.reverseRecOn with
  | nil => intro bits _; rfl
  | append_singleton ord b ih =>
    intro bits hvalid
    rw [insertOrdinals_append_bit obi ord 0 bits b]
    have hlen : (insertOrdinals obi 0 ord bits).length = bits.length + ord.length :=
      insertOrdinals_length obi ord 0 bits
    have hlen2 : (ord ++ [b]).length = ord.length + 1 := by simp
    rw [hlen2]
    show removeOrdinals obi ord.length
      (removeAt (insertAt (insertOrdinals obi 0 ord bits) b
        ((0 + ord.length) * obi)) (ord.length * obi)) = bits
    have he : (0 + ord.length) * obi = ord.length * obi := by ring
    rw [he, removeAt_insertAt _ b _
      (by rw [hlen]; have := hvalid ord.length (by simp); omega)]
    exact ih bits (fun j hj => hvalid j (by simp; omega))

theorem foldl_min_le_init : ∀ (l : List Nat) (a : Nat), l.foldl min a ≤ a
  | [], _ => le_rfl
  | x :: rest, a =>
    le_trans (foldl_min_le_init rest (min a x)) (Nat.min_le_left a x)

theorem foldl_min_le_mem : ∀ (l : List Nat) (a x : Nat), x ∈ l → l.foldl min a ≤ x
  | [], _, _, hx => absurd hx (List.not_mem_nil _)
  | y :: rest, a, x, hx => by
    rcases List.mem_cons.mp hx with h | h
    · subst h
      exact le_trans (foldl_min_le_init rest (min a x)) (Nat.min_le_right a x)
    · exact foldl_min_le_mem rest (min a y) x h

theorem le_foldl_min : ∀ (l : List Nat) (a c : Nat), c ≤ a → (∀ x ∈ l, c ≤ x) →
    c ≤ l.foldl min a
  | [], _, _, ha, _ => ha
  | x :: rest, a, c, ha, hl => by
    refine le_foldl_min rest (min a x) c ?_ (fun q hq => hl q (List.mem_cons_of_mem _ hq))
    exact le_min ha (hl x (List.mem_cons_self _ _))

theorem minKeyLength_le (keys : List (List Bool)) (k : List Bool) (hk : k ∈ keys) :
    minKeyLength keys ≤ k.length := by
  cases keys with
  | nil => cases hk
  | cons k0 rest =>
    rcases List.mem_cons.mp hk with h | h
    · subst h
      exact foldl_min_le_init _ _
    · exact foldl_min_le_mem _ _ _ (List.mem_map_of_mem List.length h)

theorem le_minKeyLength (keys : List (List Bool)) (c : Nat)
    (h : ∀ k ∈ keys, c ≤ k.length) (hne : keys ≠ []) : c ≤ minKeyLength keys := by
  cases keys with
  | nil => exact absurd rfl hne
  | cons k0 rest =>
    refine le_foldl_min _ _ c (h k0 (List.mem_cons_self _ _)) ?_
    intro x hx
    obtain ⟨k, hk, hkx⟩ := List.mem_map.mp hx
    rw [← hkx]
    exact h k (List.mem_cons_of_mem _ hk)

theorem range_map_getD_of_len {α : Type} (d : α) (l : List α) (n : Nat)
    (h : l.length = n) : (List.range n).map (fun i => l.getD i d) = l := by
  rw [← h]
  exact range_map_getD d l

/-- **C7.** For every list of `K ≥ 1` keys (each at least one instruction
record — 32 bits — long), with `ordinal_bit_count = fewest_bytes(K) * 8` and
any `ordinal_bit_increment ≥ 1` produced by the increment formula for an
admissible random draw `r ∈ [1, minключ]`: after inserting key `j`'s
generation index as `ordinal_bit_count` bits, one bit at position
`i * ordinal_bit_increment` each, the indices are recoverable from the tagged
keys alone — reading the bit at position `i * ordinal_bit_increment` of
tagged key `j` for `i` in `0 .. ordinal_bit_count - 1` yields `j` in binary
MSB first, the `K` recovered indices are exactly `0 .. K-1` with no
collisions (index `j` decodes to `j` itself), and removing those bits
restores key `j`'s raw bits. -/
theorem ordinal_tags_recoverable (keys : List (List Bool)) (K obc obi r : Nat)
    (hK : keys.length = K) (hK1 : 1 ≤ K)
    (hlen32 : ∀ k ∈ keys, 32 ≤ k.length)
    (hobc : obc = fewest_bytes K * 8)
    (hr1 : 1 ≤ r) (hr2 : r ≤ minKeyLength keys)
    (hobi : obi = ordinal_bit_increment (minKeyLength keys) obc r) :
    1 ≤ obi ∧
    ∀ j, j < K →
      readOrdinals ((get_ordered_keys keys obi obc).getD j []) obc obi
        = natToBits obc j ∧
      uint (readOrdinals ((get_ordered_keys keys obi obc).getD j []) obc obi) = j ∧
      removeOrdinals obi obc ((get_ordered_keys keys obi obc).getD j [])
        = keys.getD j [] := by
  have hobc8 : 8 ≤ obc := by
    rw [hobc]
    have := fewest_bytes_pos K
    omega
  have hne : keys ≠ [] := by
    intro h
    rw [h] at hK
    simp at hK
    omega
  have hm32 : 32 ≤ minKeyLength keys := le_minKeyLength keys 32 hlen32 hne
  have hd : 0 < obc * r := Nat.mul_pos (by omega) (by omega)
  have hobi_eq : obi = (minKeyLength keys - 1) / (obc * r) + 1 := by
    rw [hobi]
    unfold ordinal_bit_increment
    rw [show minKeyLength keys + obc * r - 1 = (minKeyLength keys - 1) + obc * r
        from by omega,
      Nat.add_div_right _ hd]
  have hobi1 : 1 ≤ obi := by
    rw [hobi_eq]
    exact Nat.succ_le_succ (Nat.zero_le _)
  have hbound : (obi - 1) * (obc * r) ≤ minKeyLength keys - 1 := by
    rw [hobi_eq, Nat.add_sub_cancel]
    exact Nat.div_mul_le_self _ _
  have hbound2 : (obi - 1) * obc ≤ minKeyLength keys - 1 := by
    have h1 : (obi - 1) * obc ≤ (obi - 1) * (obc * r) := by
      apply Nat.mul_le_mul_left
      exact Nat.le_mul_of_pos_right obc (by omega)
    omega
  have hK2 : K ≤ 2 ^ obc := by
    have h1 : K < 2 ^ fewest_bits K := lt_two_pow_fewest_bits K
    have h2 : fewest_bits K ≤ 8 * fewest_bytes K := fewest_bits_le_eight_mul K
    have h3 : 2 ^ fewest_bits K ≤ 2 ^ obc := by
      apply Nat.pow_le_pow_right (by omega)
      rw [hobc]
      omega
    omega
  refine ⟨hobi1, ?_⟩
  intro j hj
  have hjlen : j < keys.length := by omega
  have htag : (get_ordered_keys keys obi obc).getD j [] =
      insertOrdinals obi 0 (natToBits obc j) (keys.getD j []) := by
    have hlenm : j < (keys.mapIdx
        (fun order key => insertOrdinals obi 0 (natToBits obc order) key)).length := by
      rw [List.length_mapIdx]
      omega
    show (keys.mapIdx
      (fun order key => insertOrdinals obi 0 (natToBits obc order) key)).getD j [] = _
    rw [getD_eq_get_of_lt _ [] j hlenm,
      List.get_mapIdx keys _ j hjlen hlenm,
      getD_eq_get_of_lt keys [] j hjlen]
  have hrawmem : keys.getD j [] ∈ keys := by
    rw [getD_eq_get_of_lt keys [] j hjlen]
    exact keys.get_mem j hjlen
  have hrawlen : minKeyLength keys ≤ (keys.getD j []).length :=
    minKeyLength_le keys _ hrawmem
  have hordlen : (natToBits obc j).length = obc := natToBits_length obc j
  have hvalid : ∀ t, t < obc → t * obi ≤ (keys.getD j []).length + t := by
    intro t ht
    have e0 : t * obi = t * (obi - 1) + t := by
      have he1 : obi - 1 + 1 = obi := by omega
      calc t * obi = t * ((obi - 1) + 1) := by rw [he1]
        _ = t * (obi - 1) + t := by ring
    have e2 : t * (obi - 1) ≤ (obc - 1) * (obi - 1) :=
      Nat.mul_le_mul_right _ (by omega)
    have e3 : (obc - 1) * (obi - 1) ≤ obc * (obi - 1) :=
      Nat.mul_le_mul_right _ (by omega)
    have e4 : obc * (obi - 1) = (obi - 1) * obc := by ring
    omega
  have hread : readOrdinals ((get_ordered_keys keys obi obc).getD j []) obc obi
      = natToBits obc j := by
    rw [htag]
    unfold readOrdinals
    have hmapeq : (List.range obc).map
        (fun t => (insertOrdinals obi 0 (natToBits obc j) (keys.getD j [])).getD
          (t * obi) false)
        = (List.range obc).map (fun t => (natToBits obc j).getD t false) := by
      apply List.map_congr_left
      intro t htmem
      have ht : t < obc := List.mem_range.mp htmem
      have hv2 : ∀ s, s < (natToBits obc j).length →
          (0 + s) * obi ≤ (keys.getD j []).length + s := by
        intro s hs
        rw [hordlen] at hs
        have := hvalid s hs
        simpa using this
      have hr := insertOrdinals_getD_at obi hobi1 (natToBits obc j) 0
        (keys.getD j []) hv2 t (by rw [hordlen]; exact ht)
      simpa using hr
    rw [hmapeq]
    exact range_map_getD_of_len false (natToBits obc j) obc hordlen
  have huint : uint (readOrdinals ((get_ordered_keys keys obi obc).getD j [])
      obc obi) = j := by
    rw [hread, uint_natToBits]
    exact Nat.mod_eq_of_lt (by omega)
  have hremove : removeOrdinals obi obc ((get_ordered_keys keys obi obc).getD j [])
      = keys.getD j [] := by
    rw [htag]
    have hv3 : ∀ t, t < (natToBits obc j).length →
        t * obi ≤ (keys.getD j []).length + t := by
      intro t ht
      rw [hordlen] at ht
      exact hvalid t ht
    have hl := removeOrdinals_insertOrdinals obi (natToBits obc j)
      (keys.getD j []) hv3
    rw [hordlen] at hl
    exact hl
  exact ⟨hread, huint, hremove⟩

theorem ordinal_tags_recoverable_witness :
    1 ≤ 4 ∧
    ∀ j, j < 1 →
      readOrdinals ((get_ordered_keys [List.replicate 32 false] 4 8).getD j []) 8 4
        = natToBits 8 j ∧
      uint (readOrdinals ((get_ordered_keys [List.replicate 32 false] 4 8).getD j [])
        8 4) = j ∧
      removeOrdinals 4 8 ((get_ordered_keys [List.replicate 32 false] 4 8).getD j [])
        = [List.replicate 32 false].getD j [] :=
  ordinal_tags_recoverable [List.replicate 32 false] 1 8 4 1
    (by decide) (by decide) (by decide) (by decide) (by decide) (by decide) (by decide)

end Jigwise
